import Mathlib

/-
Verification of the wpm process supervisor (src/wpm) against its
specification.  The Rust source is shallowly embedded: the data model of
`src/wpm/src/unit.rs` becomes Lean structures, the map-manipulating
operations of `src/wpm/src/process_manager.rs` become pure functions over
association lists, and external effects (spawning processes, waiting on
them, network fetches, PATH lookups) are supplied as explicit oracle
arguments so that every control-flow decision of the source is reproduced
verbatim.
-/

namespace Wpm

/-! ## Association-list maps

The source keeps its process table in `HashMap<String, _>` guarded by
mutexes.  We model each map as an association list with
last-write-wins insertion; `lookupS`, `insertS` and `eraseS` mirror
`get`, `insert` and `remove`. -/

def lookupS {α : Type} : List (String × α) → String → Option α
  | [], _ => none
  | (k, v) :: rest, key => if k = key then some v else lookupS rest key

def eraseS {α : Type} : List (String × α) → String → List (String × α)
  | [], _ => []
  | (k, v) :: rest, key =>
      if k = key then eraseS rest key else (k, v) :: eraseS rest key

def insertS {α : Type} (m : List (String × α)) (k : String) (v : α) :
    List (String × α) :=
  (k, v) :: eraseS m k

theorem lookupS_eraseS_self {α : Type} (m : List (String × α)) (k : String) :
    lookupS (eraseS m k) k = none := by
  induction m with
  | nil => rfl
  | cons hd tl ih =>
      obtain ⟨k', v⟩ := hd
      by_cases h : k' = k
      · simpa [eraseS, h] using ih
      · simpa [eraseS, lookupS, h] using ih

theorem lookupS_eraseS_ne {α : Type} (m : List (String × α)) (k k' : String)
    (h : k ≠ k') : lookupS (eraseS m k) k' = lookupS m k' := by
  induction m with
  | nil => rfl
  | cons hd tl ih =>
      obtain ⟨k₀, v⟩ := hd
      by_cases hk : k₀ = k
      · subst hk
        simpa [eraseS, lookupS, h] using ih
      · by_cases hk' : k₀ = k'
        · subst hk'
          simp [eraseS, lookupS, hk, Ne.symm h, (Ne.symm hk : k ≠ k₀)]
        · simpa [eraseS, lookupS, hk, hk'] using ih

theorem lookupS_insertS_self {α : Type} (m : List (String × α)) (k : String)
    (v : α) : lookupS (insertS m k v) k = some v := by
  simp [insertS, lookupS]

theorem lookupS_insertS_ne {α : Type} (m : List (String × α)) (k k' : String)
    (v : α) (h : k ≠ k') : lookupS (insertS m k v) k' = lookupS m k' := by
  simp only [insertS, lookupS, h, if_neg]
  exact lookupS_eraseS_ne m k k' h

/-! ## Data model (src/wpm/src/unit.rs)

Paths, URLs and hashes are modeled as strings; byte buffers as lists of
naturals; timestamps as naturals. -/

/-- `RestartStrategy` from unit.rs (default `Never`). -/
inductive RestartStrategy
  | Never
  | Always
  | OnFailure
  deriving DecidableEq, Repr

/-- `ServiceKind` from unit.rs (default `Simple`). -/
inductive ServiceKind
  | Simple
  | Oneshot
  | Forking
  deriving DecidableEq, Repr

/-- `RemoteExecutable` from unit.rs: a URL plus the expected SHA-256 hex
digest of its contents. -/
structure RemoteExecutable where
  url : String
  hash : String
  deriving DecidableEq, Repr

/-- `ScoopManifest` from unit.rs. -/
structure ScoopManifest where
  package : String
  version : String
  manifest : String
  target : Option String
  deriving DecidableEq, Repr

/-- `ScoopPackage` from unit.rs (the `Package` arm is `todo!()` in all of
the source's operational code). -/
structure ScoopPackage where
  bucket : String
  package : String
  version : String
  target : Option String
  deriving DecidableEq, Repr

/-- `ScoopExecutable` from unit.rs. -/
inductive ScoopExecutable
  | Package (p : ScoopPackage)
  | Manifest (m : ScoopManifest)
  deriving DecidableEq, Repr

/-- `Executable` from unit.rs. -/
inductive Executable
  | Remote (r : RemoteExecutable)
  | Local (path : String)
  | Scoop (s : ScoopExecutable)
  deriving DecidableEq, Repr

/-- `ServiceCommand` from unit.rs.  The `retry_limit` field is the one
`ProcessManager::start` reads as `exec_start.retry_limit` at
process_manager.rs:511 (default 5). -/
structure ServiceCommand where
  executable : Executable
  arguments : Option (List String)
  environment : Option (List (String × String))
  environment_file : Option String
  retry_limit : Option Nat
  deriving DecidableEq, Repr

/-- `CommandHealthcheck` from unit.rs. -/
structure CommandHealthcheck where
  executable : String
  arguments : Option (List String)
  environment : Option (List (String × String))
  delay_sec : Nat
  retry_limit : Option Nat
  deriving DecidableEq, Repr

/-- `ProcessHealthcheck` from unit.rs. -/
structure ProcessHealthcheck where
  target : Option String
  delay_sec : Nat
  deriving DecidableEq, Repr

/-- `Healthcheck` from unit.rs. -/
inductive Healthcheck
  | Command (c : CommandHealthcheck)
  | Process (p : ProcessHealthcheck)
  deriving DecidableEq, Repr

/-- `impl Default for Healthcheck`: `Process { target: None, delay_sec: 1 }`. -/
def Healthcheck.defaultValue : Healthcheck :=
  .Process { target := none, delay_sec := 1 }

/-- `Service` from unit.rs. -/
structure Service where
  kind : ServiceKind
  autostart : Bool
  exec_start_pre : Option (List ServiceCommand)
  exec_start : ServiceCommand
  exec_start_post : Option (List ServiceCommand)
  exec_stop : Option (List ServiceCommand)
  exec_stop_post : Option (List ServiceCommand)
  environment : Option (List (String × String))
  environment_file : Option String
  working_directory : Option String
  healthcheck : Option Healthcheck
  restart : RestartStrategy
  restart_sec : Option Nat
  deriving DecidableEq, Repr

/-- `Unit` from unit.rs (renamed to avoid the Lean builtin). -/
structure UnitInfo where
  name : String
  description : Option String
  requires : Option (List String)
  deriving DecidableEq, Repr

/-- `Definition` from unit.rs.  `resources` maps resource identifiers to
URLs. -/
structure Definition where
  schema : Option String
  unit : UnitInfo
  resources : Option (List (String × String))
  service : Service
  deriving DecidableEq, Repr

/-- `std::io::ErrorKind`, reduced to the distinction the source inspects
(`NotFound` versus everything else, see `ProcessManager::stop`). -/
inductive IoErrorKind
  | NotFound
  | Other (msg : String)
  deriving DecidableEq, Repr

/-- `ProcessManagerError` from process_manager.rs. -/
inductive PMError
  | UnregisteredUnit (name : String)
  | RunningUnit (name : String)
  | CompletedUnit (name : String)
  | FailedHealthcheck (name : String)
  | NotRunning (name : String)
  | Io (kind : IoErrorKind)
  | NoHandle (name : String)
  | InvalidForkingService
  | InvalidSimpleService
  | HashMismatch (expected : String) (actual : String)
  deriving DecidableEq, Repr

/-- `SocketMessage` from lib.rs. -/
inductive SocketMessage
  | Start (names : List String)
  | Stop (names : List String)
  | Status (name : String)
  | State
  | Reload (path : Option String)
  | Reset (names : List String)
  | Restart (names : List String)
  deriving DecidableEq, Repr

/-! ## Artifact cache (claim C6)

`Executable::cached_executable_path` and
`Executable::download_remote_executable` from unit.rs.  Byte buffers are
`List Nat`; SHA-256 is an uninterpreted parameter `digest`; the cache
directory contents are an association list from path to bytes. -/

/-- Bytes of a downloaded artifact. -/
abbrev Bytes := List Nat

/-- The modeled contents of the wpm store directory: path to file bytes. -/
abbrev FileSystem := List (String × Bytes)

/-- Rust `str::trim_end_matches`: repeatedly strip a (nonempty) suffix.
Implemented with fuel (`s.length` rounds always suffice since every
strip shortens the string). -/
def trimEndMatchesAux (pat : String) : Nat → String → String
  | 0, s => s
  | fuel + 1, s =>
      if pat.length ≠ 0 ∧ s.endsWith pat then
        trimEndMatchesAux pat fuel (s.dropRight pat.length)
      else s

def trimEndMatches (s pat : String) : String :=
  trimEndMatchesAux pat s.length s

/-- Last `/`-separated segment of a URL (`split('/').next_back()`). -/
def lastUrlSegment (url : String) : String :=
  (url.splitOn ("/")).getLastD ("")

/-- `Executable::cached_executable_path`, Remote arm (unit.rs:260-279):
store dir joined with the URL stripped of scheme and filename, slashes
replaced by underscores, then the filename. -/
def remoteCachePath (storeDir : String) (r : RemoteExecutable) : String :=
  let stringified := r.url
  let filename := lastUrlSegment stringified
  let p₁ := if stringified.startsWith ("https://")
            then stringified.drop ("https://").length else stringified
  let p₂ := trimEndMatches p₁ filename
  let p₃ := (p₂.replace ("/") ("_"))
  let p₄ := trimEndMatches p₃ ("_")
  storeDir ++ ("/") ++ p₄ ++ ("/") ++ filename

/-- `Executable::download_remote_executable` (unit.rs:298-353), with the
network fetch supplied as the already-downloaded `fetched` bytes and
SHA-256 as the parameter `digest`.  Returns the outcome and the store
contents afterwards.  The Scoop arm shells out to an installer that does
not touch the modeled store, and the Local arm does nothing. -/
def Executable.download_remote_executable (digest : Bytes → String)
    (storeDir : String) (fetched : Bytes) (exe : Executable)
    (fs : FileSystem) : Except PMError Unit × FileSystem :=
  match exe with
  | .Local _ => (.ok (), fs)
  | .Remote remote =>
      let path := remoteCachePath storeDir remote
      let d := digest fetched
      if d = remote.hash then
        (.ok (), insertS fs path fetched)
      else
        (.error (.HashMismatch remote.hash d), fs)
  | .Scoop _ => (.ok (), fs)

/-- Claim C6: for every Remote executable, a fetch whose bytes hash to
something other than the declared hash fails with `HashMismatch`
carrying the expected and actual digests and writes nothing at the cache
path; a fetch whose bytes hash to the declared hash writes the bytes; so
the invariant that any file present at the executable's cache path
hashes to the declared hash is preserved by every fetch. -/
theorem wpm_c6_remote_fetch_hash_verified (digest : Bytes → String)
    (storeDir : String) (r : RemoteExecutable) (fetched : Bytes)
    (fs : FileSystem) :
    (digest fetched ≠ r.hash →
      Executable.download_remote_executable digest storeDir fetched
          (.Remote r) fs =
        (.error (.HashMismatch r.hash (digest fetched)), fs)) ∧
    (digest fetched = r.hash →
      Executable.download_remote_executable digest storeDir fetched
          (.Remote r) fs =
        (.ok (), insertS fs (remoteCachePath storeDir r) fetched)) ∧
    ((∀ b, lookupS fs (remoteCachePath storeDir r) = some b →
        digest b = r.hash) →
      ∀ b, lookupS (Executable.download_remote_executable digest storeDir
              fetched (.Remote r) fs).2 (remoteCachePath storeDir r) =
            some b →
        digest b = r.hash) := by
  refine ⟨?_, ?_, ?_⟩
  · intro hne
    simp [Executable.download_remote_executable, hne]
  · intro heq
    simp [Executable.download_remote_executable, heq]
  · intro hinv b hb
    by_cases heq : digest fetched = r.hash
    · simp only [Executable.download_remote_executable, heq, if_pos] at hb
      rw [lookupS_insertS_self] at hb
      cases hb
      exact heq
    · simp only [Executable.download_remote_executable, heq, if_neg,
        not_false_iff] at hb
      exact hinv b hb

/-- Witness for C6 at a concrete digest function, URL and store. -/
theorem wpm_c6_remote_fetch_hash_verified_witness :
    ((fun b : Bytes => if b = [7, 7] then ("good") else ("bad")) [7, 7] ≠
        ("zzz")) ∧
    (Executable.download_remote_executable
        (fun b : Bytes => if b = [7, 7] then ("good") else ("bad"))
        ("store") [7, 7]
        (.Remote { url := ("https://x.invalid/a/tool.exe"),
                   hash := ("zzz") }) [] =
      (.error (.HashMismatch ("zzz") ("good")), [])) := by
  constructor
  · decide
  · exact (wpm_c6_remote_fetch_hash_verified
      (fun b : Bytes => if b = [7, 7] then ("good") else ("bad"))
      ("store") { url := ("https://x.invalid/a/tool.exe"), hash := ("zzz") }
      [7, 7] []).1 (by decide)

end Wpm

namespace Wpm

/-! ## Command-healthcheck retry loop (claim C3)

`Definition::healthcheck`, `Healthcheck::Command` arm (unit.rs:677-709).
The exit status of the i-th spawn of the healthcheck command is supplied
by the oracle `outcome` (`true` = exit success).  `outcome 0` is the
spawn before the loop; the loop then reruns the command while the status
is a failure and `max_attempts` is positive, decrementing it after each
rerun, and the healthcheck passes exactly when the final `max_attempts`
is positive. -/

def commandHealthcheckLoop (outcome : Nat → Bool) :
    Bool → Nat → Nat → Bool × Nat
  | status, _, 0 => (status, 0)
  | status, idx, m + 1 =>
      if status then (status, m + 1)
      else commandHealthcheckLoop outcome (outcome idx) (idx + 1) m

/-- Whether the `Command` healthcheck passes: the initial spawn, the
retry loop bounded by `retry_limit.unwrap_or(5)`, then
`if max_attempts > 0 { passed = true }`. -/
def commandHealthcheckPasses (retry_limit : Option Nat)
    (outcome : Nat → Bool) : Bool :=
  let status := outcome 0
  let max_attempts := retry_limit.getD 5
  let r := commandHealthcheckLoop outcome status 1 max_attempts
  decide (0 < r.2)

/-- Claim C3 (evaluation at the failing inputs): with `retry_limit = 0`
the single attempt is made but the healthcheck fails even though that
attempt exits successfully, and with `retry_limit = 2` a success that
occurs only on the final retry of the budget is likewise discarded,
because the pass condition is `max_attempts > 0` rather than the status
of the last run; with `retry_limit = 1` a successful first attempt does
pass. -/
theorem wpm_c3_code_eval :
    commandHealthcheckPasses (some 0) (fun _ => true) = false ∧
    commandHealthcheckPasses (some 2) (fun i => i == 2) = false ∧
    commandHealthcheckPasses (some 1) (fun _ => true) = true := by
  exact ⟨rfl, rfl, rfl⟩

/-! ## The start retry loop (claim C10)

`ProcessManager::start`, lines 511-541: `retry_limit` starts at
`exec_start.retry_limit.unwrap_or(5)`; each round calls
`Definition::execute` (whose `Err` propagates via `?`) and then
`Definition::healthcheck`; a passing healthcheck breaks with the spawned
handle recorded, a failing one decrements the counter and returns the
error when it reaches zero; after the loop the recorded handle is
`unwrap`ped. -/

/-- The observable outcome of one round of the retry loop, supplied per
attempt index by an oracle. -/
inductive AttemptOutcome
  | execError (e : PMError)
  | healthFail (e : PMError)
  | healthOk
  deriving DecidableEq, Repr

/-- Result of the retry loop followed by `process_id.unwrap()`:
`panicNone` is the unwrap-of-`None` panic. -/
inductive StartLoopResult
  | ok (attempt : Nat)
  | err (e : PMError)
  | panicNone
  deriving DecidableEq, Repr

def startRetryLoop (attempts : Nat → AttemptOutcome) :
    Nat → Nat → StartLoopResult
  | _, 0 => .panicNone
  | idx, rl + 1 =>
      match attempts idx with
      | .execError e => .err e
      | .healthOk => .ok idx
      | .healthFail e =>
          if rl = 0 then .err e else startRetryLoop attempts (idx + 1) rl

/-- The retry phase of `ProcessManager::start` with the unit's
`exec_start.retry_limit`. -/
def startRetry (retry_limit : Option Nat)
    (attempts : Nat → AttemptOutcome) : StartLoopResult :=
  startRetryLoop attempts 0 (retry_limit.getD 5)

theorem startRetryLoop_ne_panic (attempts : Nat → AttemptOutcome) :
    ∀ rl idx, 1 ≤ rl → startRetryLoop attempts idx rl ≠ .panicNone := by
  intro rl
  induction rl with
  | zero => intro idx h; omega
  | succ n ih =>
      intro idx _
      simp only [startRetryLoop]
      cases attempts idx with
      | execError e => simp
      | healthOk => simp
      | healthFail e =>
          by_cases hn : n = 0
          · simp [hn]
          · simpa [hn] using ih (idx + 1) (by omega)

/-- Claim C10: whenever the exec_start retry limit is unset or at least
1, the retry loop of `ProcessManager::start` never reaches the trailing
unwrap with no recorded handle (it breaks with a handle or returns an
error first); with a retry limit of 0 the loop body never runs and the
unwrap of `None` panics. -/
theorem wpm_c10_start_retry_unwrap (retry_limit : Option Nat)
    (attempts : Nat → AttemptOutcome)
    (h : retry_limit = none ∨ ∃ n, retry_limit = some n ∧ 1 ≤ n) :
    startRetry retry_limit attempts ≠ .panicNone ∧
    ∀ attempts', startRetry (some 0) attempts' = .panicNone := by
  constructor
  · rcases h with h | ⟨n, rfl, hn⟩
    · subst h
      exact startRetryLoop_ne_panic attempts 5 0 (by omega)
    · exact startRetryLoop_ne_panic attempts n 0 hn
  · intro attempts'
    rfl

/-- Witness for C10 at retry limit 3 and an always-failing healthcheck. -/
theorem wpm_c10_start_retry_unwrap_witness :
    ((some 3 : Option Nat) = none ∨
      ∃ n, (some 3 : Option Nat) = some n ∧ 1 ≤ n) ∧
    startRetry (some 3)
        (fun _ => .healthFail (.FailedHealthcheck ("gamma"))) ≠
      .panicNone := by
  refine ⟨Or.inr ⟨3, rfl, by omega⟩, ?_⟩
  exact (wpm_c10_start_retry_unwrap (some 3)
    (fun _ => .healthFail (.FailedHealthcheck ("gamma")))
    (Or.inr ⟨3, rfl, by omega⟩)).1

end Wpm

namespace Wpm

/-! ## Process table records and the monitor worker (claim C2)

`Child` and `ProcessState` from process_manager.rs, and
`Definition::monitor_child` from unit.rs:797-882.  The worker's wait on
the child is supplied as `waitResult` (`Except` of the io error kind, or
the exit status's `success()`); sending on the control socket is
recorded in `posted` together with the sleep (`restart_sec`) that
precedes it. -/

/-- `Child` from process_manager.rs: a shared handle or a bare PID. -/
inductive ChildHandle
  | Shared (id : Nat)
  | Pid (id : Nat)
  deriving DecidableEq, Repr

def ChildHandle.id : ChildHandle → Nat
  | .Shared i => i
  | .Pid i => i

/-- `ProcessState` from process_manager.rs. -/
structure ProcessState where
  child : ChildHandle
  timestamp : Nat
  deriving DecidableEq, Repr

/-- What the monitor worker did: the process-table maps afterwards, the
messages it posted to the control plane (with the delay slept before
posting), and whether the exec_stop_post cleanup commands ran. -/
structure MonitorOutcome where
  running' : List (String × ProcessState)
  terminated' : List (String × Nat)
  posted : List (Nat × SocketMessage)
  cleanupRan : Bool
  deriving DecidableEq, Repr

/-- `Definition::monitor_child` (unit.rs:797-882).  On a successful
wait: run the cleanup commands; if the unit is still in Running, compute
`should_restart` from the restart policy and the exit status; if
restarting, remove from Running, sleep `restart_sec` and post Reset then
Start, returning early; otherwise insert into Terminated and fall
through to the final removal from Running.  On a wait error: log and
fall through to the final removal. -/
def Definition.monitor_child (d : Definition)
    (waitResult : Except IoErrorKind Bool)
    (running : List (String × ProcessState))
    (terminated : List (String × Nat)) (now : Nat) : MonitorOutcome :=
  let name := d.unit.name
  let restart_sec := d.service.restart_sec.getD 1
  match waitResult with
  | .error _ =>
      { running' := eraseS running name, terminated' := terminated,
        posted := [], cleanupRan := false }
  | .ok success =>
      if (lookupS running name).isSome then
        let should_restart : Bool :=
          if success then d.service.restart == .Always
          else d.service.restart == .Always || d.service.restart == .OnFailure
        if should_restart then
          { running' := eraseS running name, terminated' := terminated,
            posted := [(restart_sec, .Reset [name]),
                       (restart_sec, .Start [name])],
            cleanupRan := true }
        else
          { running' := eraseS running name,
            terminated' := insertS terminated name now,
            posted := [], cleanupRan := true }
      else
        { running' := eraseS running name, terminated' := terminated,
          posted := [], cleanupRan := true }

/-- Claim C2: for a supervised process observed to exit while its unit
is still in Running, the monitor restarts it (removes it from Running
and, after `restart_sec`, posts Reset then Start) exactly when the
policy is Always, or the policy is OnFailure and the exit was a failure;
in every other case it inserts the unit into Terminated, removes it from
Running, and posts nothing. -/
theorem wpm_c2_monitor_restart_policy (d : Definition)
    (running : List (String × ProcessState))
    (terminated : List (String × Nat)) (now : Nat) (success : Bool)
    (h : (lookupS running d.unit.name).isSome = true) :
    let out := d.monitor_child (.ok success) running terminated now
    ((out.posted = [(d.service.restart_sec.getD 1, .Reset [d.unit.name]),
                    (d.service.restart_sec.getD 1, .Start [d.unit.name])] ∧
        lookupS out.running' d.unit.name = none ∧
        out.terminated' = terminated) ↔
      (d.service.restart = .Always ∨
        (d.service.restart = .OnFailure ∧ success = false))) ∧
    (¬(d.service.restart = .Always ∨
        (d.service.restart = .OnFailure ∧ success = false)) →
      out.posted = [] ∧ lookupS out.terminated' d.unit.name = some now ∧
        lookupS out.running' d.unit.name = none) := by
  intro out
  have hlk := lookupS_eraseS_self running d.unit.name
  have hins := lookupS_insertS_self terminated d.unit.name now
  cases hr : d.service.restart <;> cases success <;>
    simp_all [Definition.monitor_child, out]

/-- Witness definitions for concrete evaluations: a minimal local
command and a definition builder. -/
def sampleCommand : ServiceCommand :=
  { executable := .Local ("C:/tools/app.exe"), arguments := none,
    environment := none, environment_file := none, retry_limit := none }

def mkDefinition (name : String) (kind : ServiceKind)
    (restart : RestartStrategy) : Definition :=
  { schema := none,
    unit := { name := name, description := none, requires := none },
    resources := none,
    service := { kind := kind, autostart := false, exec_start_pre := none,
                 exec_start := sampleCommand, exec_start_post := none,
                 exec_stop := none, exec_stop_post := none,
                 environment := none, environment_file := none,
                 working_directory := none, healthcheck := none,
                 restart := restart, restart_sec := none } }

/-- Witness for C2: a `Never`-policy unit that exits with failure is
terminated, not restarted. -/
theorem wpm_c2_monitor_restart_policy_witness :
    (lookupS [(("delta"), (⟨.Shared 41, 9⟩ : ProcessState))]
        (mkDefinition ("delta") .Simple .Never).unit.name).isSome = true ∧
    ((mkDefinition ("delta") .Simple .Never).monitor_child (.ok false)
          [(("delta"), ⟨.Shared 41, 9⟩)] [] 12).posted = [] ∧
      lookupS ((mkDefinition ("delta") .Simple .Never).monitor_child
          (.ok false) [(("delta"), ⟨.Shared 41, 9⟩)] [] 12).terminated'
        (mkDefinition ("delta") .Simple .Never).unit.name = some 12 ∧
      lookupS ((mkDefinition ("delta") .Simple .Never).monitor_child
          (.ok false) [(("delta"), ⟨.Shared 41, 9⟩)] [] 12).running'
        (mkDefinition ("delta") .Simple .Never).unit.name = none := by
  refine ⟨rfl, ?_⟩
  exact (wpm_c2_monitor_restart_policy (mkDefinition ("delta") .Simple .Never)
    [(("delta"), ⟨.Shared 41, 9⟩)] [] 12 false rfl).2 (by decide)

end Wpm

namespace Wpm

/-! ## The supervisor state and `ProcessManager::stop` (claims C4, C5)

`ProcessManager` from process_manager.rs: the unit registry plus the
four process-table maps.  `stop` is embedded with its external effects
(running the shutdown/cleanup commands, killing the child, waiting on
it) supplied by a `StopOracle`, and every map operation recorded in an
event trace in source order. -/

/-- The fields of `ProcessManager`. -/
structure PMState where
  definitions : List (String × Definition)
  running : List (String × ProcessState)
  completed : List (String × Nat)
  failed : List (String × Nat)
  terminated : List (String × Nat)
  deriving DecidableEq, Repr

/-- Observable steps of `ProcessManager::stop`, in source order. -/
inductive StopEvent
  | execStopCmd (i : Nat)
  | removedRunning
  | killSent
  | waitCompleted
  | reinsertedRunning
  | execStopPostCmd (i : Nat)
  deriving DecidableEq, Repr

/-- Outcomes of the external effects of one `stop` call: the result of
`command.output()` for the i-th exec_stop and exec_stop_post command
(`none` = success), of `child.kill()`, and of `child.wait()` (`Bool` is
the exit status's `success()`). -/
structure StopOracle where
  execStopResult : Nat → Option IoErrorKind
  killResult : Option IoErrorKind
  waitResult : Except IoErrorKind Bool

/-- Run a command list in order, propagating the first `?` error, and
record one event per executed command. -/
def runStopCmds (res : Nat → Option IoErrorKind) (mk : Nat → StopEvent) :
    Nat → List ServiceCommand → Option IoErrorKind × List StopEvent
  | _, [] => (none, [])
  | i, _ :: rest =>
      match res i with
      | some e => (some e, [mk i])
      | none =>
          let r := runStopCmds res mk (i + 1) rest
          (r.1, mk i :: r.2)

/-- Result of one embedded `stop` call. -/
structure StopResult where
  result : Except PMError Unit
  state : PMState
  events : List StopEvent
  posted : List (Nat × SocketMessage)

/-- `ProcessManager::stop` (process_manager.rs:543-629).  Look up the
Definition (`UnregisteredUnit`) and the Running entry (`NotRunning`);
execute the exec_stop shutdown commands (each `?`-propagated); remove
the entry from Running; kill (an error re-inserts the prior entry and
returns); wait (a `NotFound` error is treated as successful termination
with a warning, any other error re-inserts the prior entry and
returns); execute the exec_stop_post cleanup commands; if the restart
policy is Always, post a delayed Start to the control plane. -/
def ProcessManager.stop (stopPost : Nat → Option IoErrorKind)
    (o : StopOracle) (st : PMState) (name : String) : StopResult :=
  match lookupS st.definitions name with
  | none => ⟨.error (.UnregisteredUnit name), st, [], []⟩
  | some unit =>
      match lookupS st.running name with
      | none => ⟨.error (.NotRunning name), st, [], []⟩
      | some proc_state =>
          let cmds := unit.service.exec_stop.getD []
          match runStopCmds o.execStopResult .execStopCmd 0 cmds with
          | (some e, evs) => ⟨.error (.Io e), st, evs, []⟩
          | (none, evs) =>
              -- remove first to avoid the race with the monitor's wait
              let running1 := eraseS st.running name
              let evs1 := evs ++ [StopEvent.removedRunning]
              match o.killResult with
              | some e =>
                  ⟨.error (.Io e),
                   { st with running := insertS running1 name proc_state },
                   evs1 ++ [.killSent, .reinsertedRunning], []⟩
              | none =>
                  let evs2 := evs1 ++ [StopEvent.killSent]
                  let waitErr : Option IoErrorKind :=
                    match o.waitResult with
                    | .ok _ => none
                    | .error e => if e = .NotFound then none else some e
                  match waitErr with
                  | some e =>
                      ⟨.error (.Io e),
                       { st with
                         running := insertS running1 name proc_state },
                       evs2 ++ [.reinsertedRunning], []⟩
                  | none =>
                      let evs3 := evs2 ++ [StopEvent.waitCompleted]
                      let postCmds := unit.service.exec_stop_post.getD []
                      match runStopCmds stopPost .execStopPostCmd 0
                          postCmds with
                      | (some e, pevs) =>
                          ⟨.error (.Io e), { st with running := running1 },
                           evs3 ++ pevs, []⟩
                      | (none, pevs) =>
                          let posted :=
                            if unit.service.restart == .Always then
                              [(unit.service.restart_sec.getD 1,
                                SocketMessage.Start [name])]
                            else []
                          ⟨.ok (), { st with running := running1 },
                           evs3 ++ pevs, posted⟩

end Wpm

namespace Wpm

theorem runStopCmds_events_of_ok (res : Nat → Option IoErrorKind)
    (mk : Nat → StopEvent) :
    ∀ (cmds : List ServiceCommand) (i : Nat),
      (runStopCmds res mk i cmds).1 = none →
      (runStopCmds res mk i cmds).2 =
        (List.range cmds.length).map (fun j => mk (i + j)) := by
  intro cmds
  induction cmds with
  | nil => intro i _; rfl
  | cons c rest ih =>
      intro i h
      cases hres : res i with
      | some e =>
          simp only [runStopCmds, hres] at h
          simp at h
      | none =>
          simp only [runStopCmds, hres] at h ⊢
          rw [ih (i + 1) h]
          rw [List.length_cons, List.range_succ_eq_map]
          simp only [List.map_cons, List.map_map, Nat.add_zero,
            List.cons.injEq, true_and]
          refine congrArg (fun f => List.map f (List.range rest.length)) ?_
          funext j
          simp [Function.comp, Nat.add_comm, Nat.add_assoc, Nat.add_left_comm]

/-- Claim C4: for a running unit, when `stop` fails because kill errors,
or because wait errors with a kind other than `NotFound`, the prior
Running entry is present again when the error is returned and the
Running map is unchanged; a `NotFound` wait error is instead treated
exactly like a successful wait (the run of `stop` is identical to one
whose wait succeeded, proceeding to the exec_stop_post commands), with
only a warning logged. -/
theorem wpm_c4_stop_error_handling (stopPost : Nat → Option IoErrorKind)
    (o : StopOracle) (st : PMState) (name : String) (unit : Definition)
    (ps : ProcessState)
    (hdef : lookupS st.definitions name = some unit)
    (hrun : lookupS st.running name = some ps)
    (hcmds : (runStopCmds o.execStopResult .execStopCmd 0
        (unit.service.exec_stop.getD [])).1 = none) :
    (∀ e, o.killResult = some e →
      (ProcessManager.stop stopPost o st name).result = .error (.Io e) ∧
      ∀ k, lookupS (ProcessManager.stop stopPost o st name).state.running k =
        lookupS st.running k) ∧
    (∀ e, o.killResult = none → o.waitResult = .error e →
      e ≠ .NotFound →
      (ProcessManager.stop stopPost o st name).result = .error (.Io e) ∧
      ∀ k, lookupS (ProcessManager.stop stopPost o st name).state.running k =
        lookupS st.running k) ∧
    (o.killResult = none → o.waitResult = .error .NotFound →
      ProcessManager.stop stopPost o st name =
        ProcessManager.stop stopPost { o with waitResult := .ok true }
          st name) := by
  rcases hrc : runStopCmds o.execStopResult .execStopCmd 0
      (unit.service.exec_stop.getD []) with ⟨r, evs⟩
  rw [hrc] at hcmds
  simp only at hcmds
  subst hcmds
  have hrestore : ∀ k,
      lookupS (insertS (eraseS st.running name) name ps) k =
        lookupS st.running k := by
    intro k
    by_cases hk : name = k
    · subst hk
      rw [lookupS_insertS_self, hrun]
    · rw [lookupS_insertS_ne _ _ _ _ hk, lookupS_eraseS_ne _ _ _ hk]
  refine ⟨?_, ?_, ?_⟩
  · intro e hke
    simp only [ProcessManager.stop, hdef, hrun, hrc, hke]
    exact ⟨by trivial, hrestore⟩
  · intro e hkn hw hnf
    simp only [ProcessManager.stop, hdef, hrun, hrc, hkn, hw]
    rw [if_neg hnf]
    exact ⟨by trivial, hrestore⟩
  · intro hkn hw
    simp only [ProcessManager.stop, hdef, hrun, hrc, hkn, hw]
    simp

/-- Supporting concrete inputs for the stop claims: a registered unit
with one exec_stop shutdown command, running with a shared handle. -/
def c5def : Definition :=
  { mkDefinition ("alpha") .Simple .Never with
    service := { (mkDefinition ("alpha") .Simple .Never).service with
                 exec_stop := some [sampleCommand] } }

def c5st : PMState :=
  { definitions := [(("alpha"), c5def)],
    running := [(("alpha"), ⟨.Shared 7, 3⟩)],
    completed := [], failed := [], terminated := [] }

def okStopOracle : StopOracle :=
  { execStopResult := fun _ => none, killResult := none,
    waitResult := .ok true }

/-- Witness for C4: a kill error on a running unit leaves the Running
map unchanged (the prior entry for the unit included). -/
theorem wpm_c4_stop_error_handling_witness :
    lookupS c5st.definitions ("alpha") = some c5def ∧
    lookupS c5st.running ("alpha") = some ⟨.Shared 7, 3⟩ ∧
    ((ProcessManager.stop (fun _ => none)
        { okStopOracle with killResult := some (.Other ("denied")) }
        c5st ("alpha")).result = .error (.Io (.Other ("denied"))) ∧
      ∀ k, lookupS (ProcessManager.stop (fun _ => none)
          { okStopOracle with killResult := some (.Other ("denied")) }
          c5st ("alpha")).state.running k = lookupS c5st.running k) := by
  refine ⟨rfl, rfl, ?_⟩
  exact (wpm_c4_stop_error_handling (fun _ => none)
    { okStopOracle with killResult := some (.Other ("denied")) }
    c5st ("alpha") c5def ⟨.Shared 7, 3⟩ rfl rfl rfl).1
    (.Other ("denied")) rfl

/-- Counterexample to claim C5 as stated: in this successful `stop` the
first recorded step is the execution of an exec_stop shutdown command,
and the removal from Running happens only afterwards, so the entry is
not removed before the exec_stop commands run. -/
theorem wpm_c5_counterexample :
    (ProcessManager.stop (fun _ => none) okStopOracle c5st
        ("alpha")).result = .ok () ∧
    (ProcessManager.stop (fun _ => none) okStopOracle c5st
        ("alpha")).events =
      [.execStopCmd 0, .removedRunning, .killSent, .waitCompleted] := by
  exact ⟨rfl, rfl⟩

/-- Claim C5 as amended: in every successful `stop`, the unit's entry is
removed from Running after the exec_stop shutdown commands have run but
before the kill signal is sent and the exit is awaited (the Running lock
is held for the whole of `stop`, so a monitor worker still cannot
observe the exit while the entry is present). -/
theorem wpm_c5_remove_after_exec_stop_before_kill
    (stopPost : Nat → Option IoErrorKind) (o : StopOracle) (st : PMState)
    (name : String)
    (h : (ProcessManager.stop stopPost o st name).result = .ok ()) :
    ∃ n m, (ProcessManager.stop stopPost o st name).events =
      ((List.range n).map StopEvent.execStopCmd) ++
      ([.removedRunning, .killSent, .waitCompleted] ++
        (List.range m).map StopEvent.execStopPostCmd) := by
  rcases hdef : lookupS st.definitions name with _ | unit
  · simp only [ProcessManager.stop, hdef] at h
    exact absurd h (by simp)
  rcases hrun : lookupS st.running name with _ | ps
  · simp only [ProcessManager.stop, hdef, hrun] at h
    exact absurd h (by simp)
  rcases hrc : runStopCmds o.execStopResult .execStopCmd 0
      (unit.service.exec_stop.getD []) with ⟨r, evs⟩
  cases r with
  | some e =>
      simp only [ProcessManager.stop, hdef, hrun, hrc] at h
      exact absurd h (by simp)
  | none =>
      have hevs : evs = (List.range
          (unit.service.exec_stop.getD []).length).map
            (fun j => StopEvent.execStopCmd (0 + j)) := by
        have := runStopCmds_events_of_ok o.execStopResult .execStopCmd
          (unit.service.exec_stop.getD []) 0 (by rw [hrc])
        rw [hrc] at this
        exact this
      rcases hkill : o.killResult with _ | e
      · rcases hwait : o.waitResult with e | ex
        case error =>
          by_cases hnf : e = .NotFound
          · subst hnf
            rcases hpc : runStopCmds stopPost .execStopPostCmd 0
                (unit.service.exec_stop_post.getD []) with ⟨rp, pevs⟩
            cases rp with
            | some ep =>
                simp only [ProcessManager.stop, hdef, hrun, hrc, hkill,
                  hwait, hpc] at h
                exact absurd h (by simp)
            | none =>
                have hpevs : pevs = (List.range
                    (unit.service.exec_stop_post.getD []).length).map
                      (fun j => StopEvent.execStopPostCmd (0 + j)) := by
                  have := runStopCmds_events_of_ok stopPost
                    .execStopPostCmd (unit.service.exec_stop_post.getD [])
                    0 (by rw [hpc])
                  rw [hpc] at this
                  exact this
                refine ⟨(unit.service.exec_stop.getD []).length,
                  (unit.service.exec_stop_post.getD []).length, ?_⟩
                simp only [ProcessManager.stop, hdef, hrun, hrc, hkill,
                  hwait, hpc]
                rw [hevs, hpevs]
                simp
          · simp only [ProcessManager.stop, hdef, hrun, hrc, hkill,
              hwait] at h
            rw [if_neg hnf] at h
            exact absurd h (by simp)
        case ok =>
          rcases hpc : runStopCmds stopPost .execStopPostCmd 0
              (unit.service.exec_stop_post.getD []) with ⟨rp, pevs⟩
          cases rp with
          | some ep =>
              simp only [ProcessManager.stop, hdef, hrun, hrc, hkill,
                hwait, hpc] at h
              exact absurd h (by simp)
          | none =>
              have hpevs : pevs = (List.range
                  (unit.service.exec_stop_post.getD []).length).map
                    (fun j => StopEvent.execStopPostCmd (0 + j)) := by
                have := runStopCmds_events_of_ok stopPost
                  .execStopPostCmd (unit.service.exec_stop_post.getD [])
                  0 (by rw [hpc])
                rw [hpc] at this
                exact this
              refine ⟨(unit.service.exec_stop.getD []).length,
                (unit.service.exec_stop_post.getD []).length, ?_⟩
              simp only [ProcessManager.stop, hdef, hrun, hrc, hkill,
                hwait, hpc]
              rw [hevs, hpevs]
              simp
      · simp only [ProcessManager.stop, hdef, hrun, hrc, hkill] at h
        exact absurd h (by simp)

/-- Witness for the amended C5 at a concrete successful stop. -/
theorem wpm_c5_remove_after_exec_stop_before_kill_witness :
    (ProcessManager.stop (fun _ => none) okStopOracle c5st
        ("alpha")).result = .ok () ∧
    ∃ n m, (ProcessManager.stop (fun _ => none) okStopOracle c5st
        ("alpha")).events =
      ((List.range n).map StopEvent.execStopCmd) ++
      ([.removedRunning, .killSent, .waitCompleted] ++
        (List.range m).map StopEvent.execStopPostCmd) := by
  exact ⟨rfl, wpm_c5_remove_after_exec_stop_before_kill (fun _ => none)
    okStopOracle c5st ("alpha") rfl⟩

end Wpm

namespace Wpm

/-! ## `ProcessManager::start` (claim C1)

`start` (process_manager.rs:480-541) together with the state effects of
`Definition::execute` (unit.rs:535-649) and `Definition::healthcheck`
(unit.rs:651-795).  External effects — pre-start command and spawn
failures, oneshot launcher exits, healthcheck command exits, process
liveness queries, PID discovery for forking services, post-start command
failures — are supplied by a `StartOracle`, keyed by unit name and
attempt index.  The recursion over dependencies is bounded by `fuel`
(the source recurses unboundedly and would overflow on a dependency
cycle; `outOfFuel` marks runs the bound cut off).  Map operations are
recorded as events in source order. -/

/-- Observable steps of `start`, in source order. -/
inductive StartEvent
  | clearedFailed (name : String)
  | clearedTerminated (name : String)
  | depStart (name : String)
  | spawned (name : String)
  deriving DecidableEq, Repr

/-- Result of a `start` call: `panicked` is the trailing
`process_id.unwrap()` on `None`, `outOfFuel` marks exhaustion of the
modeling recursion bound. -/
inductive StartOutcome
  | ok
  | err (e : PMError)
  | panicked
  | outOfFuel
  deriving DecidableEq, Repr

/-- Outcomes of the external effects of the launch attempts. -/
structure StartOracle where
  execResult : String → Nat → Option PMError
  oneshotExit : String → Nat → Except IoErrorKind Bool
  cmdHcOutcome : String → Nat → Nat → Bool
  pidAlive : String → Nat → Bool
  targetPid : String → Nat → Option Nat
  postCmdErr : String → Nat → Option PMError
  spawnedChild : String → Nat → Nat
  now : Nat

/-- State effects of `Definition::execute` for attempt `idx`: pre-start
commands and the spawn (either can fail, propagated by `?`); a Simple or
Forking launch returns the handle at once (the monitor worker runs
separately, see `Definition.monitor_child`); a Oneshot waits for the
exit, inserts into Completed on success (then runs exec_start_post and
exec_stop, failures ignored) and finally removes itself from Running. -/
def Definition.execute (o : StartOracle) (d : Definition) (st : PMState)
    (idx : Nat) : Except PMError Unit × PMState × List StartEvent :=
  let name := d.unit.name
  match o.execResult name idx with
  | some e => (.error e, st, [])
  | none =>
      match d.service.kind with
      | .Simple => (.ok (), st, [.spawned name])
      | .Forking => (.ok (), st, [.spawned name])
      | .Oneshot =>
          match o.oneshotExit name idx with
          | .ok true =>
              let st1 := { st with
                completed := insertS st.completed name o.now }
              (.ok (), { st1 with running := eraseS st1.running name },
               [.spawned name])
          | _ => (.ok (), { st with running := eraseS st.running name },
                  [.spawned name])

/-- State effects of `Definition::healthcheck` for attempt `idx`: only
Simple and Forking services are checked, and a unit already in Running
passes at once; a Command healthcheck passes per the retry loop
(`commandHealthcheckPasses`); a Process healthcheck without target
passes when the spawned PID is alive; one with a target passes when a
matching process is found, whose PID replaces the handle; on pass the
unit is inserted into Running and the exec_start_post commands run
(their `?` errors propagate); on failure the unit is inserted into
Failed and `FailedHealthcheck` is returned. -/
def Definition.healthcheckModel (o : StartOracle) (d : Definition)
    (st : PMState) (idx : Nat) : Except PMError Unit × PMState :=
  let name := d.unit.name
  if ¬(d.service.kind = .Simple ∨ d.service.kind = .Forking) then
    (.ok (), st)
  else if (lookupS st.running name).isSome then (.ok (), st)
  else
    let pf : Bool × Option Nat :=
      match d.service.healthcheck with
      | some (.Command hc) =>
          (commandHealthcheckPasses hc.retry_limit (o.cmdHcOutcome name idx),
           none)
      | some (.Process p) =>
          match p.target with
          | none => (o.pidAlive name idx, none)
          | some _ =>
              match o.targetPid name idx with
              | some pid => (true, some pid)
              | none => (false, none)
      | none => (false, none)
    if pf.1 then
      let child : ChildHandle :=
        match pf.2 with
        | none => .Shared (o.spawnedChild name idx)
        | some pid => .Pid pid
      let st1 := { st with
        running := insertS st.running name ⟨child, o.now⟩ }
      match o.postCmdErr name idx with
      | some e => (.error e, st1)
      | none => (.ok (), st1)
    else
      (.error (.FailedHealthcheck name),
       { st with failed := insertS st.failed name o.now })

/-- The retry loop of `start` (process_manager.rs:511-541) with its
state effects: execute, then healthcheck; pass breaks with the handle,
failure decrements the counter and surfaces the last error; entering the
loop with a zero counter reaches the unwrap of `None`. -/
def startAttempts (o : StartOracle) (d : Definition) :
    Nat → Nat → PMState → StartOutcome × PMState × List StartEvent
  | _, 0, st => (.panicked, st, [])
  | idx, rl + 1, st =>
      match Definition.execute o d st idx with
      | (.error e, st', evs) => (.err e, st', evs)
      | (.ok _, st', evs) =>
          match Definition.healthcheckModel o d st' idx with
          | (.ok _, st'') => (.ok, st'', evs)
          | (.error e, st'') =>
              if rl = 0 then (.err e, st'', evs)
              else
                let r := startAttempts o d (idx + 1) rl st''
                (r.1, r.2.1, evs ++ r.2.2)

/-- The dependency loop of `start` (process_manager.rs:498-509): for
each required name, look it up (`UnregisteredUnit` if absent) and, if it
is not already Running, start it recursively, propagating failures. -/
def runDeps
    (startF : PMState → String → StartOutcome × PMState × List StartEvent) :
    PMState → List String → Option StartOutcome × PMState × List StartEvent
  | st, [] => (none, st, [])
  | st, dep :: rest =>
      match lookupS st.definitions dep with
      | none => (some (.err (.UnregisteredUnit dep)), st, [])
      | some dd =>
          if (lookupS st.running dd.unit.name).isSome then
            runDeps startF st rest
          else
            match startF st dd.unit.name with
            | (.ok, st', evs) =>
                let r := runDeps startF st' rest
                (r.1, r.2.1, (.depStart dd.unit.name :: evs) ++ r.2.2)
            | (out, st', evs) =>
                (some out, st', .depStart dd.unit.name :: evs)

/-- `ProcessManager::start` (process_manager.rs:480-541): look up the
Definition (`UnregisteredUnit`); reject a unit in Running
(`RunningUnit`) or Completed (`CompletedUnit`); clear the unit from
Failed and Terminated; start missing dependencies recursively; then run
the launch retry loop. -/
def ProcessManager.start (o : StartOracle) :
    Nat → PMState → String → StartOutcome × PMState × List StartEvent
  | 0, st, _ => (.outOfFuel, st, [])
  | fuel + 1, st, name =>
      match lookupS st.definitions name with
      | none => (.err (.UnregisteredUnit name), st, [])
      | some d =>
          if (lookupS st.running name).isSome then
            (.err (.RunningUnit name), st, [])
          else if (lookupS st.completed name).isSome then
            (.err (.CompletedUnit name), st, [])
          else
            let st1 := { st with failed := eraseS st.failed name,
                                 terminated := eraseS st.terminated name }
            let ev0 : List StartEvent :=
              [.clearedFailed name, .clearedTerminated name]
            match runDeps (ProcessManager.start o fuel) st1
                (d.unit.requires.getD []) with
            | (some out, st2, evs) => (out, st2, ev0 ++ evs)
            | (none, st2, evs) =>
                let r := startAttempts o d 0
                  (d.service.exec_start.retry_limit.getD 5) st2
                (r.1, r.2.1, ev0 ++ evs ++ r.2.2)

/-- Claim C1: `start(name)` returns `UnregisteredUnit` when the name has
no Definition; `RunningUnit` when it is in Running; `CompletedUnit` when
it is in Completed; otherwise its first two recorded steps — before any
dependency start or spawn — are the removal of the name from Failed and
from Terminated, and the state handed to the dependency loop has the
name cleared from both maps. -/
theorem wpm_c1_start_prelude (o : StartOracle) (fuel : Nat) (st : PMState)
    (name : String) (h : 0 < fuel) :
    (lookupS st.definitions name = none →
      (ProcessManager.start o fuel st name).1 =
        .err (.UnregisteredUnit name)) ∧
    (∀ d, lookupS st.definitions name = some d →
      (lookupS st.running name).isSome = true →
      (ProcessManager.start o fuel st name).1 = .err (.RunningUnit name)) ∧
    (∀ d, lookupS st.definitions name = some d →
      lookupS st.running name = none →
      (lookupS st.completed name).isSome = true →
      (ProcessManager.start o fuel st name).1 =
        .err (.CompletedUnit name)) ∧
    (∀ d, lookupS st.definitions name = some d →
      lookupS st.running name = none →
      lookupS st.completed name = none →
      (∃ tr, (ProcessManager.start o fuel st name).2.2 =
          .clearedFailed name :: .clearedTerminated name :: tr) ∧
      (ProcessManager.start o fuel st name) =
        (match runDeps (ProcessManager.start o (fuel - 1))
            { st with failed := eraseS st.failed name,
                      terminated := eraseS st.terminated name }
            (d.unit.requires.getD []) with
         | (some out, st2, evs) =>
             (out, st2, [.clearedFailed name, .clearedTerminated name] ++
               evs)
         | (none, st2, evs) =>
             let r := startAttempts o d 0
               (d.service.exec_start.retry_limit.getD 5) st2
             (r.1, r.2.1, [.clearedFailed name,
               .clearedTerminated name] ++ evs ++ r.2.2))) := by
  obtain ⟨fuel, rfl⟩ : ∃ f, fuel = f + 1 := by
    cases fuel with
    | zero => omega
    | succ n => exact ⟨n, rfl⟩
  refine ⟨?_, ?_, ?_, ?_⟩
  · intro hdef
    simp only [ProcessManager.start, hdef]
  · intro d hdef hrun
    simp only [ProcessManager.start, hdef, hrun, if_true]
  · intro d hdef hrun hcomp
    simp only [ProcessManager.start, hdef, hrun, Option.isSome_none,
      Bool.false_eq_true, if_false, hcomp, if_true]
  · intro d hdef hrun hcomp
    constructor
    · simp only [ProcessManager.start, hdef, hrun, hcomp,
        Option.isSome_none, Bool.false_eq_true, if_false]
      rcases hdeps : runDeps (ProcessManager.start o fuel)
          { st with failed := eraseS st.failed name,
                    terminated := eraseS st.terminated name }
          (d.unit.requires.getD []) with ⟨r, st2, evs⟩
      cases r with
      | some out => exact ⟨evs, rfl⟩
      | none =>
          exact ⟨evs ++ (startAttempts o d 0
            (d.service.exec_start.retry_limit.getD 5) st2).2.2, rfl⟩
    · simp only [ProcessManager.start, hdef, hrun, hcomp,
        Option.isSome_none, Bool.false_eq_true, if_false,
        Nat.add_sub_cancel]

/-- Witness for C1: a registered, idle unit with no dependencies. -/
theorem wpm_c1_start_prelude_witness :
    (0 : Nat) < 1 ∧
    (lookupS (PMState.mk [(("alpha"), c5def)] [] [] [(("alpha"), 2)]
        [(("alpha"), 3)]).definitions ("alpha") = some c5def ∧
      lookupS (PMState.mk [(("alpha"), c5def)] [] [] [(("alpha"), 2)]
        [(("alpha"), 3)]).running ("alpha") = none ∧
      lookupS (PMState.mk [(("alpha"), c5def)] [] [] [(("alpha"), 2)]
        [(("alpha"), 3)]).completed ("alpha") = none) ∧
    ∃ tr, (ProcessManager.start
        ⟨fun _ _ => none, fun _ _ => .ok true, fun _ _ _ => true,
         fun _ _ => true, fun _ _ => none, fun _ _ => none,
         fun _ _ => 11, 6⟩ 1
        (PMState.mk [(("alpha"), c5def)] [] [] [(("alpha"), 2)]
          [(("alpha"), 3)]) ("alpha")).2.2 =
      .clearedFailed ("alpha") :: .clearedTerminated ("alpha") :: tr := by
  refine ⟨by omega, ⟨rfl, rfl, rfl⟩, ?_⟩
  exact ((wpm_c1_start_prelude
    ⟨fun _ _ => none, fun _ _ => .ok true, fun _ _ _ => true,
     fun _ _ => true, fun _ _ => none, fun _ _ => none,
     fun _ _ => 11, 6⟩ 1
    (PMState.mk [(("alpha"), c5def)] [] [] [(("alpha"), 2)]
      [(("alpha"), 3)]) ("alpha") (by omega)).2.2.2 c5def rfl rfl rfl).1

end Wpm

namespace Wpm

/-! ## Resource interpolation (claim C8)

`replace_interpolations` (unit.rs:426-442) applies
`Regex::replace_all` with the process-wide pattern from lib.rs,
`\{\{\s*Resources\.([A-Za-z0-9_]+)\s*\}\}`: every leftmost-first
non-overlapping match is replaced by the mapped path of its captured
identifier, or left unchanged when the identifier is not in the map.
The scanner below reproduces those semantics on character lists; the
regex's components are character classes with disjoint follow sets, so
greedy matching is deterministic and a single left-to-right pass is
exact.  (`\s` is modeled as ASCII whitespace.) -/

/-- `\s` (ASCII part). -/
def isWsChar (c : Char) : Bool :=
  c == ' ' || c == '\t' || c == '\n' || c == '\x0d' || c == '\x0b' ||
    c == '\x0c'

/-- `[A-Za-z0-9_]`. -/
def isIdentChar (c : Char) : Bool :=
  (('A' ≤ c && c ≤ 'Z') || ('a' ≤ c && c ≤ 'z') ||
    ('0' ≤ c && c ≤ '9') || c == '_')

/-- Try to match the resource token pattern at the head of the list;
returns the captured identifier and the length of the whole match. -/
def tryMatch : List Char → Option (String × Nat)
  | c0 :: c1 :: rest =>
      if c0 = '{' ∧ c1 = '{' then
        let ws1 := rest.takeWhile isWsChar
        let r1 := rest.drop ws1.length
        if r1.take 10 = ("Resources.").data then
          let r2 := r1.drop 10
          let id := r2.takeWhile isIdentChar
          if id.isEmpty then none
          else
            let r3 := r2.drop id.length
            let ws2 := r3.takeWhile isWsChar
            match r3.drop ws2.length with
            | d0 :: d1 :: _ =>
                if d0 = '}' ∧ d1 = '}' then
                  some (String.mk id,
                    2 + ws1.length + 10 + id.length + ws2.length + 2)
                else none
            | _ => none
        else none
      else none
  | _ => none

/-- One block of `replace_all` output: an unmatched character, a match
kept verbatim (identifier not in the map), or a match substituted by the
mapped path. -/
inductive RBlock
  | lit (c : Char)
  | keep (cs : List Char)
  | subst (path : List Char)
  deriving DecidableEq, Repr

/-- Left-to-right scan of the input into blocks (fuel-bounded; the input
length always suffices since every step consumes at least one
character). -/
def tokenize (m : List (String × String)) : Nat → List Char → List RBlock
  | 0, _ => []
  | _, [] => []
  | fuel + 1, c :: cs =>
      match tryMatch (c :: cs) with
      | none => .lit c :: tokenize m fuel cs
      | some (id, len) =>
          match lookupS m id with
          | some path =>
              .subst path.data :: tokenize m fuel ((c :: cs).drop len)
          | none =>
              .keep ((c :: cs).take len) ::
                tokenize m fuel ((c :: cs).drop len)

def render : List RBlock → List Char
  | [] => []
  | .lit c :: bs => c :: render bs
  | .keep cs :: bs => cs ++ render bs
  | .subst p :: bs => p ++ render bs

/-- `replace_interpolations` (unit.rs:426-442). -/
def replace_interpolations (input : String)
    (resources : List (String × String)) : String :=
  String.mk (render (tokenize resources (input.data.length + 1)
    input.data))

/-- Rust `str::replace` (non-overlapping, left to right), used by the
source for `$USERPROFILE` expansion; implemented with fuel so that it
evaluates inside the kernel. -/
def replaceSubAux (pat repl : List Char) : Nat → List Char → List Char
  | 0, cs => cs
  | _, [] => []
  | fuel + 1, c :: cs =>
      if pat ≠ [] ∧ (c :: cs).take pat.length = pat then
        repl ++ replaceSubAux pat repl fuel ((c :: cs).drop pat.length)
      else c :: replaceSubAux pat repl fuel cs

def strReplace (s pat repl : String) : String :=
  String.mk (replaceSubAux pat.data repl.data (s.data.length + 1) s.data)

/-! ## `Definition::resolve_resources` (unit.rs:445-533)

For each (identifier, URL) pair: compute the store path and fetch the
file if absent — a store-path or send error skips that identifier with a
warning, a body/write error aborts the load — collecting the resolved
identifiers into a map; then substitute interpolations in the service
environment values, the exec_start arguments and environment values,
the exec_stop arguments (the source does not touch exec_stop
environment values), and the arguments and environment values of
exec_stop_post, exec_start_post and exec_start_pre. -/

/-- Outcome of resolving one resource URL against the store. -/
inductive FetchOutcome
  | skip
  | abort (e : PMError)
  | fetched (path : String)

def buildResourceMap (fetch : String → String → FetchOutcome) :
    List (String × String) → Except PMError (List (String × String))
  | [] => .ok []
  | (ident, url) :: rest =>
      match fetch ident url with
      | .skip => buildResourceMap fetch rest
      | .abort e => .error e
      | .fetched path => do
          let m ← buildResourceMap fetch rest
          .ok ((ident, path) :: m)

/-- Substitute interpolations in a command's arguments only. -/
def substCmdArgs (m : List (String × String)) (c : ServiceCommand) :
    ServiceCommand :=
  { c with arguments :=
      c.arguments.map (List.map (fun a => replace_interpolations a m)) }

/-- Substitute interpolations in a command's arguments and environment
values. -/
def substCmdArgsEnv (m : List (String × String)) (c : ServiceCommand) :
    ServiceCommand :=
  { c with
    arguments :=
      c.arguments.map (List.map (fun a => replace_interpolations a m)),
    environment :=
      c.environment.map (List.map
        (fun kv => (kv.1, replace_interpolations kv.2 m))) }

def Definition.resolve_resources (fetch : String → String → FetchOutcome)
    (d : Definition) : Except PMError Definition :=
  match d.resources with
  | none => .ok d
  | some resources =>
      match buildResourceMap fetch resources with
      | .error e => .error e
      | .ok rm =>
          .ok { d with service :=
            { d.service with
              environment := d.service.environment.map (List.map
                (fun kv => (kv.1, replace_interpolations kv.2 rm))),
              exec_start := substCmdArgsEnv rm d.service.exec_start,
              exec_stop :=
                d.service.exec_stop.map (List.map (substCmdArgs rm)),
              exec_stop_post :=
                d.service.exec_stop_post.map
                  (List.map (substCmdArgsEnv rm)),
              exec_start_post :=
                d.service.exec_start_post.map
                  (List.map (substCmdArgsEnv rm)),
              exec_start_pre :=
                d.service.exec_start_pre.map
                  (List.map (substCmdArgsEnv rm)) } }

example :
    replace_interpolations ("run \x7b\x7b Resources.cfg \x7d\x7d now")
      [(("cfg"), ("C:/store/cfg.json"))] = ("run C:/store/cfg.json now") := by
  decide

example :
    replace_interpolations ("\x7b\x7b Resources.other \x7d\x7d")
      [(("cfg"), ("p"))] = ("\x7b\x7b Resources.other \x7d\x7d") := by
  decide

example :
    replace_interpolations ("a\x7b\x7bResources.x\x7d\x7db")
      [(("x"), ("P"))] = ("aPb") := by
  decide

end Wpm

namespace Wpm

/-! ## The unit loader (claims C7, C9)

`ProcessManager::load_units` (process_manager.rs:235-471), per unit
file, staged: resolve resources; validate kind/healthcheck coherence;
expand `$USERPROFILE` and environment files; locate the primary
executable and the pre/post/stop command executables (file existence and
PATH search as oracles); install healthcheck defaults; locate the
Command-healthcheck executable; register.  A stage returning
`.ok none` means the unit is skipped and loading continues with the next
file; `.error` aborts the whole load. -/

/-- External effects of one load: resource fetches, environment-file
reads (`none` = unreadable, ignored by the source), the home directory,
`canonicalize().is_ok()` per path, `ProcessManager::find_exe` per path,
and the `pathbuf()` outcomes for Remote and Scoop executables (which may
download). -/
structure LoadOracle where
  fetch : String → String → FetchOutcome
  envFile : String → Option (List (String × String))
  homeDir : String
  canonOk : String → Bool
  findExe : String → Option String
  remotePathbuf : RemoteExecutable → Except PMError String
  scoopPathbuf : ScoopExecutable → Except PMError String

/-- `Executable::pathbuf` under the load oracle. -/
def Executable.pathbufM (o : LoadOracle) : Executable → Except PMError String
  | .Local p => .ok p
  | .Remote r => o.remotePathbuf r
  | .Scoop s => o.scoopPathbuf s

/-- The environment-file merge pattern of unit.rs:375-392 and
process_manager.rs:313-332: appending each entry turns `None` into
`Some` only when there is at least one entry. -/
def envMerge (env : Option (List (String × String)))
    (envs : List (String × String)) : Option (List (String × String)) :=
  if envs.isEmpty then env else some (env.getD [] ++ envs)

/-- `ServiceCommand::resolve_user_profile` (unit.rs:357-397). -/
def ServiceCommand.resolve_user_profile (o : LoadOracle)
    (c : ServiceCommand) : ServiceCommand :=
  let c1 := match c.executable with
    | .Local p =>
        { c with executable :=
            Executable.Local (strReplace p ("$USERPROFILE") o.homeDir) }
    | _ => c
  let c2 := { c1 with arguments := c1.arguments.map (List.map
    (fun a => strReplace a ("$USERPROFILE") o.homeDir)) }
  let c3 := match c2.environment_file with
    | some ef =>
        match o.envFile (strReplace ef ("$USERPROFILE") o.homeDir) with
        | some envs => { c2 with environment := envMerge c2.environment envs }
        | none => c2
    | none => c2
  { c3 with environment := c3.environment.map (List.map
    (fun kv => (kv.1, strReplace kv.2 ("$USERPROFILE") o.homeDir))) }

/-- `CommandHealthcheck::resolve_user_profile` (unit.rs:915-934). -/
def CommandHealthcheck.resolve_user_profile (home : String)
    (hc : CommandHealthcheck) : CommandHealthcheck :=
  { hc with
    executable := strReplace hc.executable ("$USERPROFILE") home,
    arguments := hc.arguments.map (List.map
      (fun a => strReplace a ("$USERPROFILE") home)),
    environment := hc.environment.map (List.map
      (fun kv => (kv.1, strReplace kv.2 ("$USERPROFILE") home))) }

/-- Whether a healthcheck is `Process` with a target — the predicate
`load_units` tests for both validations (process_manager.rs:273-297). -/
def processTargetHc : Option Healthcheck → Bool
  | some (.Process p) => p.target.isSome
  | _ => false

/-- Kind/healthcheck validation: a Forking service must have a Process
healthcheck with a target, a Simple service must not. -/
def loadValidate (d : Definition) : Except PMError Definition :=
  if d.service.kind == .Forking && !processTargetHc d.service.healthcheck
  then .error .InvalidForkingService
  else if d.service.kind == .Simple && processTargetHc d.service.healthcheck
  then .error .InvalidSimpleService
  else .ok d

/-- The `$USERPROFILE` and environment-file stage
(process_manager.rs:299-354). -/
def stageUserProfile (o : LoadOracle) (d : Definition) : Definition :=
  let d1 := { d with service := { d.service with
    working_directory := d.service.working_directory.map
      (fun w => strReplace w ("$USERPROFILE") o.homeDir) } }
  let d2 := match d1.service.environment_file with
    | some ef =>
        match o.envFile (strReplace ef ("$USERPROFILE") o.homeDir) with
        | some envs =>
            { d1 with service := { d1.service with
                environment := envMerge d1.service.environment envs } }
        | none => d1
    | none => d1
  let d3 := { d2 with service := { d2.service with
    environment := d2.service.environment.map (List.map
      (fun kv : String × String =>
        (kv.1, strReplace kv.2 ("$USERPROFILE") o.homeDir))) } }
  { d3 with service := { d3.service with
    exec_start_pre := d3.service.exec_start_pre.map
      (List.map (ServiceCommand.resolve_user_profile o)),
    exec_start := ServiceCommand.resolve_user_profile o d3.service.exec_start,
    exec_start_post := d3.service.exec_start_post.map
      (List.map (ServiceCommand.resolve_user_profile o)),
    exec_stop := d3.service.exec_stop.map
      (List.map (ServiceCommand.resolve_user_profile o)),
    exec_stop_post := d3.service.exec_stop_post.map
      (List.map (ServiceCommand.resolve_user_profile o)) } }

/-- One of the pre/post/stop command location loops
(process_manager.rs:378-436).  When a command's executable neither
exists nor is found on PATH, the source's `continue` targets this inner
`for` loop, so only the remaining work for that command is skipped and
the unit is NOT skipped, although the logged warning says it is; the
command is kept with its executable unresolved. -/
def resolveCmdList (o : LoadOracle) :
    List ServiceCommand → Except PMError (List ServiceCommand)
  | [] => .ok []
  | c :: rest =>
      match Executable.pathbufM o c.executable with
      | .error e => .error e
      | .ok p =>
          let c' := if o.canonOk p then c
            else match o.findExe p with
              | some q => { c with executable := Executable.Local q }
              | none => c
          match resolveCmdList o rest with
          | .error e => .error e
          | .ok rest' => .ok (c' :: rest')

def resolveOptCmdList (o : LoadOracle) :
    Option (List ServiceCommand) →
      Except PMError (Option (List ServiceCommand))
  | none => .ok none
  | some l =>
      match resolveCmdList o l with
      | .error e => .error e
      | .ok l' => .ok (some l')

/-- Locating the primary executable (process_manager.rs:356-376, where
a miss skips the unit) and the four command loops. -/
def stageExec (o : LoadOracle) (d : Definition) :
    Except PMError (Option Definition) :=
  match Executable.pathbufM o d.service.exec_start.executable with
  | .error e => .error e
  | .ok p =>
      match (if o.canonOk p then some d.service.exec_start.executable
             else (o.findExe p).map Executable.Local) with
      | none => .ok none
      | some pex =>
          match resolveOptCmdList o d.service.exec_start_pre with
          | .error e => .error e
          | .ok pre =>
              match resolveOptCmdList o d.service.exec_start_post with
              | .error e => .error e
              | .ok post =>
                  match resolveOptCmdList o d.service.exec_stop with
                  | .error e => .error e
                  | .ok stp =>
                      match resolveOptCmdList o d.service.exec_stop_post with
                      | .error e => .error e
                      | .ok stpp =>
                          .ok (some { d with service := { d.service with
                            exec_start := { d.service.exec_start with
                              executable := pex },
                            exec_start_pre := pre,
                            exec_start_post := post,
                            exec_stop := stp,
                            exec_stop_post := stpp } })

/-- Healthcheck defaulting (process_manager.rs:438-448): a Simple unit
without a healthcheck gets the default, a Oneshot unit's healthcheck is
dropped. -/
def dropOneshotHc (d : Definition) : Definition :=
  if d.service.kind == .Oneshot && d.service.healthcheck.isSome
  then { d with service := { d.service with healthcheck := none } }
  else d

def stageDefaults (d : Definition) : Definition :=
  dropOneshotHc
    (if d.service.kind == .Simple && d.service.healthcheck.isNone
     then { d with service := { d.service with
         healthcheck := some Healthcheck.defaultValue } }
     else d)

/-- Locating the Command-healthcheck executable
(process_manager.rs:450-465); a miss here does skip the unit. -/
def stageHcCommand (o : LoadOracle) (d : Definition)
    (hc : CommandHealthcheck) : Except PMError (Option Definition) :=
  if o.canonOk hc.executable then
    .ok (some { d with service := { d.service with
      healthcheck := some (.Command hc) } })
  else
    match o.findExe hc.executable with
    | some q =>
        .ok (some { d with service := { d.service with
          healthcheck := some (.Command { hc with executable := q }) } })
    | none => .ok none

def stageHc (o : LoadOracle) (d : Definition) :
    Except PMError (Option Definition) :=
  match d.service.healthcheck with
  | some (.Command hc0) =>
      stageHcCommand o d (CommandHealthcheck.resolve_user_profile o.homeDir hc0)
  | _ => .ok (some d)

/-- Loading one unit file end to end. -/
def loadOne (o : LoadOracle) (d0 : Definition) :
    Except PMError (Option Definition) :=
  match Definition.resolve_resources o.fetch d0 with
  | .error e => .error e
  | .ok d1 =>
      match loadValidate d1 with
      | .error e => .error e
      | .ok d2 =>
          match stageExec o (stageUserProfile o d2) with
          | .error e => .error e
          | .ok none => .ok none
          | .ok (some d4) => stageHc o (stageDefaults d4)

/-- `load_units` over the parsed unit files, returning the registered
definitions of a successful load. -/
def load_units (o : LoadOracle) :
    List Definition → Except PMError (List Definition)
  | [] => .ok []
  | d :: rest =>
      match loadOne o d with
      | .error e => .error e
      | .ok none => load_units o rest
      | .ok (some d') =>
          match load_units o rest with
          | .error e => .error e
          | .ok rest' => .ok (d' :: rest')

end Wpm

namespace Wpm

/-- Concrete inputs for claim C7: a Simple unit whose primary executable
exists but whose single pre-start command's executable neither exists
nor is on PATH. -/
def c7missingCmd : ServiceCommand :=
  { executable := .Local ("missingtool"), arguments := none,
    environment := none, environment_file := none, retry_limit := none }

def c7def : Definition :=
  { mkDefinition ("bravo") .Simple .Never with
    service := { (mkDefinition ("bravo") .Simple .Never).service with
                 exec_start_pre := some [c7missingCmd] } }

def c7oracle : LoadOracle :=
  { fetch := fun _ _ => .skip, envFile := fun _ => none,
    homeDir := ("H"),
    canonOk := fun p => p == ("C:/tools/app.exe"),
    findExe := fun _ => none,
    remotePathbuf := fun _ => .error (.Io (.Other ("offline"))),
    scoopPathbuf := fun _ => .error (.Io (.Other ("offline"))) }

/-- Claim C7 (evaluation at the failing input): a unit whose pre-start
command executable is missing from disk and from PATH is nevertheless
registered, with the command kept unresolved — the source's `continue`
only skips to the next command of the inner loop, despite the warning
text saying the unit is skipped.  By contrast a missing primary
executable does skip the unit, as the claim states. -/
theorem wpm_c7_missing_prestart_exe_still_registered :
    (∃ d', loadOne c7oracle c7def = .ok (some d') ∧
      d'.service.exec_start_pre = some [c7missingCmd]) ∧
    loadOne { c7oracle with canonOk := fun _ => false } c7def = .ok none := by
  exact ⟨⟨_, rfl, rfl⟩, rfl⟩

end Wpm

namespace Wpm

theorem resolve_resources_kind_hc (fetch : String → String → FetchOutcome)
    (d d1 : Definition) (h : Definition.resolve_resources fetch d = .ok d1) :
    d1.service.kind = d.service.kind ∧
    d1.service.healthcheck = d.service.healthcheck := by
  unfold Definition.resolve_resources at h
  split at h
  · cases h; exact ⟨rfl, rfl⟩
  · split at h
    · simp at h
    · cases h; exact ⟨rfl, rfl⟩

theorem stageUserProfile_kind_hc (o : LoadOracle) (d : Definition) :
    (stageUserProfile o d).service.kind = d.service.kind ∧
    (stageUserProfile o d).service.healthcheck = d.service.healthcheck := by
  simp only [stageUserProfile]
  split
  · split
    · exact ⟨rfl, rfl⟩
    · exact ⟨rfl, rfl⟩
  · exact ⟨rfl, rfl⟩

theorem stageExecTail (o : LoadOracle) (d : Definition) (pex : Executable)
    {d' : Definition}
    (h : (match resolveOptCmdList o d.service.exec_start_pre with
          | Except.error e => Except.error e
          | Except.ok pre =>
              match resolveOptCmdList o d.service.exec_start_post with
              | Except.error e => Except.error e
              | Except.ok post =>
                  match resolveOptCmdList o d.service.exec_stop with
                  | Except.error e => Except.error e
                  | Except.ok stp =>
                      match resolveOptCmdList o d.service.exec_stop_post with
                      | Except.error e => Except.error e
                      | Except.ok stpp =>
                          Except.ok (some { d with service := { d.service with
                            exec_start := { d.service.exec_start with
                              executable := pex },
                            exec_start_pre := pre,
                            exec_start_post := post,
                            exec_stop := stp,
                            exec_stop_post := stpp } })) =
        Except.ok (some d')) :
    d'.service.kind = d.service.kind ∧
    d'.service.healthcheck = d.service.healthcheck := by
  cases h1 : resolveOptCmdList o d.service.exec_start_pre with
  | error e => rw [h1] at h; exact absurd h (by simp)
  | ok pre =>
  rw [h1] at h
  try dsimp only at h
  cases h2 : resolveOptCmdList o d.service.exec_start_post with
  | error e => rw [h2] at h; exact absurd h (by simp)
  | ok post =>
  rw [h2] at h
  try dsimp only at h
  cases h3 : resolveOptCmdList o d.service.exec_stop with
  | error e => rw [h3] at h; exact absurd h (by simp)
  | ok stp =>
  rw [h3] at h
  try dsimp only at h
  cases h4 : resolveOptCmdList o d.service.exec_stop_post with
  | error e => rw [h4] at h; exact absurd h (by simp)
  | ok stpp =>
  rw [h4] at h
  try dsimp only at h
  injection h with h5
  injection h5 with h6
  subst h6
  exact ⟨rfl, rfl⟩

theorem stageExec_kind_hc (o : LoadOracle) (d d' : Definition)
    (h : stageExec o d = .ok (some d')) :
    d'.service.kind = d.service.kind ∧
    d'.service.healthcheck = d.service.healthcheck := by
  unfold stageExec at h
  cases hp : Executable.pathbufM o d.service.exec_start.executable with
  | error e => rw [hp] at h; exact absurd h (by simp)
  | ok p =>
  rw [hp] at h
  try dsimp only at h
  by_cases hcb : o.canonOk p = true
  · rw [if_pos hcb] at h
    try dsimp only at h
    revert h
    exact stageExecTail o d _
  · rw [if_neg hcb] at h
    cases hf : o.findExe p with
    | none => rw [hf] at h; exact absurd h (by simp)
    | some q =>
        rw [hf] at h
        try simp only [Option.map_some] at h
        try dsimp only at h
        revert h
        exact stageExecTail o d _

theorem stageDefaults_kind (d : Definition) :
    (stageDefaults d).service.kind = d.service.kind := by
  unfold stageDefaults dropOneshotHc
  split <;> split <;> rfl

theorem stageHc_kind_hc (o : LoadOracle) (d d' : Definition)
    (h : stageHc o d = .ok (some d')) :
    d'.service.kind = d.service.kind ∧
    ((∃ hc, d.service.healthcheck = some (.Command hc)) →
      ∃ hc', d'.service.healthcheck = some (.Command hc')) ∧
    (∀ x, d.service.healthcheck = some (.Process x) →
      d'.service.healthcheck = some (.Process x)) ∧
    (d.service.healthcheck = none → d'.service.healthcheck = none) := by
  unfold stageHc at h
  cases hh : d.service.healthcheck with
  | none =>
      rw [hh] at h
      try dsimp only at h
      injection h with h1
      injection h1 with h2
      subst h2
      simp_all
  | some hcv =>
      rw [hh] at h
      cases hcv with
      | Process p =>
          try dsimp only at h
          injection h with h1
          injection h1 with h2
          subst h2
          simp_all
      | Command hc0 =>
          try dsimp only at h
          unfold stageHcCommand at h
          by_cases hcb : o.canonOk
              (CommandHealthcheck.resolve_user_profile o.homeDir
                hc0).executable = true
          · rw [if_pos hcb] at h
            injection h with h1
            injection h1 with h2
            subst h2
            simp_all
          · rw [if_neg hcb] at h
            cases hf : o.findExe (CommandHealthcheck.resolve_user_profile
                o.homeDir hc0).executable with
            | none => rw [hf] at h; exact absurd h (by simp)
            | some q =>
                rw [hf] at h
                injection h with h1
                injection h1 with h2
                subst h2
                simp_all
end Wpm

namespace Wpm

theorem processTargetHc_true (x : Option Healthcheck) :
    processTargetHc x = true ↔
      ∃ p, x = some (.Process p) ∧ p.target.isSome = true := by
  cases x with
  | none => simp [processTargetHc]
  | some hcv =>
      cases hcv with
      | Command c => simp [processTargetHc]
      | Process p => simp [processTargetHc]

theorem stageDefaults_forking (d : Definition)
    (h : d.service.kind = .Forking) : stageDefaults d = d := by
  unfold stageDefaults dropOneshotHc
  simp [h]

theorem stageDefaults_simple_none (d : Definition)
    (h : d.service.kind = .Simple) (hh : d.service.healthcheck = none) :
    stageDefaults d = { d with service := { d.service with
      healthcheck := some Healthcheck.defaultValue } } := by
  unfold stageDefaults dropOneshotHc
  simp [h, hh]

theorem stageDefaults_simple_some (d : Definition) (x : Healthcheck)
    (h : d.service.kind = .Simple) (hh : d.service.healthcheck = some x) :
    stageDefaults d = d := by
  unfold stageDefaults dropOneshotHc
  simp [h, hh]

theorem stageDefaults_oneshot_hc (d : Definition)
    (h : d.service.kind = .Oneshot) :
    (stageDefaults d).service.healthcheck = none := by
  unfold stageDefaults dropOneshotHc
  cases hh : d.service.healthcheck <;> simp [h, hh]

/-- The kind/healthcheck shape of every Definition that `loadOne`
registers. -/
theorem loadOne_c9 (o : LoadOracle) (d0 d' : Definition)
    (h : loadOne o d0 = .ok (some d')) :
    (d'.service.kind = .Forking →
      ∃ p, d'.service.healthcheck = some (.Process p) ∧
        p.target.isSome = true) ∧
    (d'.service.kind = .Simple →
      (∀ p, d'.service.healthcheck = some (.Process p) → p.target = none) ∧
      d'.service.healthcheck ≠ none ∧
      (d0.service.healthcheck = none →
        d'.service.healthcheck = some Healthcheck.defaultValue)) ∧
    (d'.service.kind = .Oneshot → d'.service.healthcheck = none) := by
  unfold loadOne at h
  cases hr : Definition.resolve_resources o.fetch d0 with
  | error e => rw [hr] at h; exact absurd h (by simp)
  | ok d1 =>
  rw [hr] at h
  try dsimp only at h
  obtain ⟨hk1, hh1⟩ := resolve_resources_kind_hc o.fetch d0 d1 hr
  unfold loadValidate at h
  by_cases hbf : (d1.service.kind == ServiceKind.Forking &&
      !processTargetHc d1.service.healthcheck) = true
  · rw [if_pos hbf] at h; exact absurd h (by simp)
  rw [if_neg hbf] at h
  by_cases hbs : (d1.service.kind == ServiceKind.Simple &&
      processTargetHc d1.service.healthcheck) = true
  · rw [if_pos hbs] at h; exact absurd h (by simp)
  rw [if_neg hbs] at h
  try dsimp only at h
  cases hse : stageExec o (stageUserProfile o d1) with
  | error e => rw [hse] at h; exact absurd h (by simp)
  | ok od4 =>
  rw [hse] at h
  cases od4 with
  | none => try dsimp only at h; exact absurd h (by simp)
  | some d4 =>
  try dsimp only at h
  obtain ⟨hk3, hh3⟩ := stageUserProfile_kind_hc o d1
  obtain ⟨hk4, hh4⟩ := stageExec_kind_hc o (stageUserProfile o d1) d4 hse
  have hkind4 : d4.service.kind = d1.service.kind := by rw [hk4, hk3]
  have hhc4 : d4.service.healthcheck = d1.service.healthcheck := by
    rw [hh4, hh3]
  obtain ⟨hk5, hcCmd, hcProc, hcNone⟩ := stageHc_kind_hc o
    (stageDefaults d4) d' h
  have hkind' : d'.service.kind = d1.service.kind := by
    rw [hk5, stageDefaults_kind, hkind4]
  cases hd1k : d1.service.kind with
  | Forking =>
      have hpt : processTargetHc d1.service.healthcheck = true := by
        rcases Bool.eq_false_or_eq_true
            (processTargetHc d1.service.healthcheck) with ht | hf
        · exact ht
        · exact absurd (by simp [hd1k, hf]) hbf
      obtain ⟨p, hps, hpt2⟩ := (processTargetHc_true _).1 hpt
      have hsd : stageDefaults d4 = d4 :=
        stageDefaults_forking d4 (by rw [hkind4, hd1k])
      rw [hsd] at hcProc
      have hfinal : d'.service.healthcheck = some (.Process p) :=
        hcProc p (by rw [hhc4, hps])
      refine ⟨fun _ => ⟨p, hfinal, hpt2⟩, ?_, ?_⟩ <;> intro hx <;>
        rw [hx, hd1k] at hkind' <;> exact absurd hkind' (by decide)
  | Simple =>
      have hpt : processTargetHc d1.service.healthcheck = false := by
        rcases Bool.eq_false_or_eq_true
            (processTargetHc d1.service.healthcheck) with ht | hf
        · exact absurd (by simp [hd1k, ht]) hbs
        · exact hf
      refine ⟨?_, ?_, ?_⟩
      · intro hx
        rw [hx, hd1k] at hkind'
        exact absurd hkind' (by decide)
      · intro _
        cases hh : d1.service.healthcheck with
        | none =>
            have hsd := stageDefaults_simple_none d4
              (by rw [hkind4, hd1k]) (by rw [hhc4, hh])
            rw [hsd] at hcProc
            have hfinal : d'.service.healthcheck =
                some Healthcheck.defaultValue :=
              hcProc { target := none, delay_sec := 1 } rfl
            refine ⟨?_, ?_, fun _ => hfinal⟩
            · intro p hp
              rw [hfinal] at hp
              injection hp with hp1
              cases hp1
              rfl
            · rw [hfinal]; exact Option.some_ne_none _
        | some hcv =>
            have hsd := stageDefaults_simple_some d4 hcv
              (by rw [hkind4, hd1k]) (by rw [hhc4, hh])
            rw [hsd] at hcCmd hcProc hcNone
            cases hcv with
            | Command c =>
                obtain ⟨hc', hfinal⟩ := hcCmd ⟨c, by rw [hhc4, hh]⟩
                refine ⟨?_, ?_, ?_⟩
                · intro p hp
                  rw [hfinal] at hp
                  exact absurd hp (by simp)
                · rw [hfinal]; exact Option.some_ne_none _
                · intro hz
                  rw [← hh1] at hz
                  rw [hz] at hh
                  exact absurd hh (by simp)
            | Process p =>
                have hptgt : p.target = none := by
                  rw [hh] at hpt
                  try dsimp only [processTargetHc] at hpt
                  cases ht : p.target with
                  | none => rfl
                  | some t => rw [ht] at hpt; simp at hpt
                have hfinal : d'.service.healthcheck =
                    some (.Process p) :=
                  hcProc p (by rw [hhc4, hh])
                refine ⟨?_, ?_, ?_⟩
                · intro q hq
                  rw [hfinal] at hq
                  injection hq with hq1
                  injection hq1 with hq2
                  rw [← hq2]
                  exact hptgt
                · rw [hfinal]; exact Option.some_ne_none _
                · intro hz
                  rw [← hh1] at hz
                  rw [hz] at hh
                  exact absurd hh (by simp)
      · intro hx
        rw [hx, hd1k] at hkind'
        exact absurd hkind' (by decide)
  | Oneshot =>
      have hn : (stageDefaults d4).service.healthcheck = none :=
        stageDefaults_oneshot_hc d4 (by rw [hkind4, hd1k])
      refine ⟨?_, ?_, fun _ => hcNone hn⟩ <;> intro hx <;>
        rw [hx, hd1k] at hkind' <;> exact absurd hkind' (by decide)

end Wpm

namespace Wpm

theorem load_units_mem (o : LoadOracle) :
    ∀ (ds res : List Definition), load_units o ds = .ok res →
      ∀ d' ∈ res, ∃ d0 ∈ ds, loadOne o d0 = .ok (some d') := by
  intro ds
  induction ds with
  | nil =>
      intro res h d' hd'
      unfold load_units at h
      injection h with h1
      subst h1
      exact absurd hd' (List.not_mem_nil d')
  | cons d rest ih =>
      intro res h d' hd'
      unfold load_units at h
      cases hl : loadOne o d with
      | error e => rw [hl] at h; exact absurd h (by simp)
      | ok od =>
      rw [hl] at h
      cases od with
      | none =>
          try dsimp only at h
          obtain ⟨d0, hm, he⟩ := ih res h d' hd'
          exact ⟨d0, List.mem_cons_of_mem d hm, he⟩
      | some dd =>
          try dsimp only at h
          cases hr : load_units o rest with
          | error e => rw [hr] at h; exact absurd h (by simp)
          | ok rest' =>
          rw [hr] at h
          injection h with h1
          subst h1
          rcases List.mem_cons.1 hd' with h1 | h1
          · subst h1
            exact ⟨d, List.mem_cons_self d rest, hl⟩
          · obtain ⟨d0, hm, he⟩ := ih rest' hr d' h1
            exact ⟨d0, List.mem_cons_of_mem d hm, he⟩

theorem loadOne_err_of_bad_forking (o : LoadOracle) (d : Definition)
    (hk : d.service.kind = .Forking)
    (hb : processTargetHc d.service.healthcheck = false) :
    ∃ e, loadOne o d = .error e := by
  unfold loadOne
  cases hr : Definition.resolve_resources o.fetch d with
  | error e => exact ⟨e, rfl⟩
  | ok d1 =>
      obtain ⟨hk1, hh1⟩ := resolve_resources_kind_hc o.fetch d d1 hr
      refine ⟨.InvalidForkingService, ?_⟩
      have hv : loadValidate d1 = .error .InvalidForkingService := by
        unfold loadValidate
        rw [if_pos (by simp [hk1, hk, hh1, hb])]
      try dsimp only
      simp only [hv]

theorem loadOne_err_of_bad_simple (o : LoadOracle) (d : Definition)
    (hk : d.service.kind = .Simple)
    (hb : processTargetHc d.service.healthcheck = true) :
    ∃ e, loadOne o d = .error e := by
  unfold loadOne
  cases hr : Definition.resolve_resources o.fetch d with
  | error e => exact ⟨e, rfl⟩
  | ok d1 =>
      obtain ⟨hk1, hh1⟩ := resolve_resources_kind_hc o.fetch d d1 hr
      refine ⟨.InvalidSimpleService, ?_⟩
      have hv : loadValidate d1 = .error .InvalidSimpleService := by
        unfold loadValidate
        rw [if_neg (by simp [hk1, hk, hh1, hb]),
          if_pos (by simp [hk1, hk, hh1, hb])]
      try dsimp only
      simp only [hv]

theorem load_units_ne_ok_of_err (o : LoadOracle) :
    ∀ (ds : List Definition) (d : Definition), d ∈ ds →
      (∃ e, loadOne o d = .error e) →
      ∀ res, load_units o ds ≠ .ok res := by
  intro ds
  induction ds with
  | nil => intro d hd; exact absurd hd (List.not_mem_nil d)
  | cons a rest ih =>
      intro d hd ⟨e, he⟩ res h
      unfold load_units at h
      rcases List.mem_cons.1 hd with h1 | h1
      · subst h1
        rw [he] at h
        exact absurd h (by simp)
      · cases hl : loadOne o a with
        | error e' => rw [hl] at h; exact absurd h (by simp)
        | ok od =>
        rw [hl] at h
        cases od with
        | none =>
            try dsimp only at h
            exact ih d h1 ⟨e, he⟩ res h
        | some dd =>
            try dsimp only at h
            cases hr : load_units o rest with
            | error e' => rw [hr] at h; exact absurd h (by simp)
            | ok rest' => exact ih d h1 ⟨e, he⟩ rest' hr

/-- Claim C9: every Definition registered by a successful load has a
coherent kind/healthcheck pair — Forking implies a Process healthcheck
with a target; Simple implies the healthcheck is present and is not
Process-with-target, the default `Process { target: none, delay: 1 }`
being installed when the file had none; Oneshot implies no healthcheck —
and a load containing a Forking unit without a Process-target
healthcheck, or a Simple unit with one, fails as a whole (with
`InvalidForkingService` respectively `InvalidSimpleService` surfacing
from the offending unit). -/
theorem wpm_c9_kind_healthcheck_coherence :
    (∀ (o : LoadOracle) (ds res : List Definition),
      load_units o ds = .ok res → ∀ d' ∈ res, ∃ d0 ∈ ds,
        loadOne o d0 = .ok (some d') ∧
        (d'.service.kind = .Forking →
          ∃ p, d'.service.healthcheck = some (.Process p) ∧
            p.target.isSome = true) ∧
        (d'.service.kind = .Simple →
          (∀ p, d'.service.healthcheck = some (.Process p) →
            p.target = none) ∧
          d'.service.healthcheck ≠ none ∧
          (d0.service.healthcheck = none →
            d'.service.healthcheck = some Healthcheck.defaultValue)) ∧
        (d'.service.kind = .Oneshot → d'.service.healthcheck = none)) ∧
    (∀ (o : LoadOracle) (ds : List Definition) (d : Definition), d ∈ ds →
      d.service.kind = .Forking →
      processTargetHc d.service.healthcheck = false →
      ∀ res, load_units o ds ≠ .ok res) ∧
    (∀ (o : LoadOracle) (ds : List Definition) (d : Definition), d ∈ ds →
      d.service.kind = .Simple →
      processTargetHc d.service.healthcheck = true →
      ∀ res, load_units o ds ≠ .ok res) ∧
    (∀ (o : LoadOracle) (d : Definition), d.resources = none →
      d.service.kind = .Forking →
      processTargetHc d.service.healthcheck = false →
      loadOne o d = .error .InvalidForkingService) ∧
    (∀ (o : LoadOracle) (d : Definition), d.resources = none →
      d.service.kind = .Simple →
      processTargetHc d.service.healthcheck = true →
      loadOne o d = .error .InvalidSimpleService) := by
  refine ⟨?_, ?_, ?_, ?_, ?_⟩
  · intro o ds res h d' hd'
    obtain ⟨d0, hm, he⟩ := load_units_mem o ds res h d' hd'
    obtain ⟨h1, h2, h3⟩ := loadOne_c9 o d0 d' he
    exact ⟨d0, hm, he, h1, h2, h3⟩
  · intro o ds d hd hk hb
    exact load_units_ne_ok_of_err o ds d hd
      (loadOne_err_of_bad_forking o d hk hb)
  · intro o ds d hd hk hb
    exact load_units_ne_ok_of_err o ds d hd
      (loadOne_err_of_bad_simple o d hk hb)
  · intro o d hres hk hb
    have hr : Definition.resolve_resources o.fetch d = .ok d := by
      unfold Definition.resolve_resources
      rw [hres]
    unfold loadOne
    rw [hr]
    have hv : loadValidate d = .error .InvalidForkingService := by
      unfold loadValidate
      rw [if_pos (by simp [hk, hb])]
    try dsimp only
    simp only [hv]
  · intro o d hres hk hb
    have hr : Definition.resolve_resources o.fetch d = .ok d := by
      unfold Definition.resolve_resources
      rw [hres]
    unfold loadOne
    rw [hr]
    have hv : loadValidate d = .error .InvalidSimpleService := by
      unfold loadValidate
      rw [if_neg (by simp [hk, hb]), if_pos (by simp [hk, hb])]
    try dsimp only
    simp only [hv]

/-- Concrete bad Forking definition for the C9 witness. -/
def c9badForking : Definition := mkDefinition ("fork") .Forking .Never

/-- Witness for C9: a Forking definition without a Process-target
healthcheck makes `loadOne` fail with `InvalidForkingService`, and a
tiny successful load registers only coherent definitions. -/
theorem wpm_c9_kind_healthcheck_coherence_witness :
    (c9badForking.resources = none ∧
      c9badForking.service.kind = .Forking ∧
      processTargetHc c9badForking.service.healthcheck = false) ∧
    loadOne c7oracle c9badForking = .error .InvalidForkingService := by
  refine ⟨⟨rfl, rfl, rfl⟩, ?_⟩
  exact (wpm_c9_kind_healthcheck_coherence).2.2.2.1 c7oracle c9badForking
    rfl rfl rfl

end Wpm

namespace Wpm

/-! ## The token language and the matcher's exactness (claim C8) -/

/-- Characters that may appear strictly between the braces of a token:
whitespace, identifier characters, and the dot of `Resources.`. -/
def interiorChar (c : Char) : Bool :=
  isWsChar c || isIdentChar c || c == '.'

/-- `t` is a full match of the resource-token regex with captured
identifier `id`. -/
def IsToken (t id : List Char) : Prop :=
  ∃ w1 w2,
    t = '{' :: '{' ::
      (w1 ++ ("Resources.").data ++ id ++ w2 ++ ['}', '}']) ∧
    (∀ c ∈ w1, isWsChar c = true) ∧ (∀ c ∈ w2, isWsChar c = true) ∧
    id ≠ [] ∧ ∀ c ∈ id, isIdentChar c = true

theorem ws_not_ident (c : Char) (h : isWsChar c = true) :
    isIdentChar c = false := by
  have h' : c = ' ' ∨ c = '\t' ∨ c = '\n' ∨ c = '\x0d' ∨ c = '\x0b' ∨
      c = '\x0c' := by
    simpa [isWsChar, or_assoc] using h
  rcases h' with rfl | rfl | rfl | rfl | rfl | rfl <;> decide

theorem takeWhile_run (p : Char → Bool) (a b : List Char) (c0 : Char)
    (ha : ∀ c ∈ a, p c = true) (hc : p c0 = false) :
    (a ++ c0 :: b).takeWhile p = a := by
  induction a with
  | nil => simp [List.takeWhile_cons, hc]
  | cons x a' ih =>
      have hx : p x = true := ha x (List.mem_cons_self x a')
      rw [List.cons_append, List.takeWhile_cons, if_pos hx,
        ih (fun c hcm => ha c (List.mem_cons_of_mem x hcm))]

/-- `tryMatch` succeeds exactly on a token prefix, capturing its
identifier and consuming its full length. -/
theorem tryMatch_complete (w1 id w2 x : List Char)
    (hw1 : ∀ c ∈ w1, isWsChar c = true)
    (hw2 : ∀ c ∈ w2, isWsChar c = true)
    (hid : id ≠ []) (hidc : ∀ c ∈ id, isIdentChar c = true) :
    tryMatch ('{' :: '{' ::
        (w1 ++ ("Resources.").data ++ id ++ w2 ++ '}' :: '}' :: x)) =
      some (String.mk id,
        2 + w1.length + 10 + id.length + w2.length + 2) := by
  have hR : ("Resources.").data = 'R' :: ("esources.").data := rfl
  have hws1 : (w1 ++ ("Resources.").data ++ id ++ w2 ++
      '}' :: '}' :: x).takeWhile isWsChar = w1 := by
    rw [hR]
    have := takeWhile_run isWsChar w1
      (("esources.").data ++ id ++ w2 ++ '}' :: '}' :: x) 'R' hw1
      (by decide)
    simpa using this
  have hdrop1 : (w1 ++ ("Resources.").data ++ id ++ w2 ++
      '}' :: '}' :: x).drop w1.length =
      ("Resources.").data ++ (id ++ w2 ++ '}' :: '}' :: x) := by
    have := List.drop_left w1 (("Resources.").data ++ id ++ w2 ++
      '}' :: '}' :: x)
    simpa using this
  have htake10 : (("Resources.").data ++
      (id ++ w2 ++ '}' :: '}' :: x)).take 10 = ("Resources.").data := by
    have := List.take_left (("Resources.").data)
      (id ++ w2 ++ '}' :: '}' :: x)
    simpa using this
  have hdrop10 : (("Resources.").data ++
      (id ++ w2 ++ '}' :: '}' :: x)).drop 10 =
      id ++ w2 ++ '}' :: '}' :: x := by
    have := List.drop_left (("Resources.").data)
      (id ++ w2 ++ '}' :: '}' :: x)
    simpa using this
  have hidtw : (id ++ w2 ++ '}' :: '}' :: x).takeWhile isIdentChar =
      id := by
    cases hw : w2 with
    | nil =>
        simpa [hw] using takeWhile_run isIdentChar id ('}' :: x) '}'
          hidc (by decide)
    | cons c0 w2' =>
        have hmem : c0 ∈ w2 := by
          rw [hw]
          exact List.mem_cons_self c0 w2'
        have hc0 : isIdentChar c0 = false := ws_not_ident c0 (hw2 c0 hmem)
        simpa [hw] using takeWhile_run isIdentChar id
          (w2' ++ '}' :: '}' :: x) c0 hidc hc0
  have hiddr : (id ++ w2 ++ '}' :: '}' :: x).drop id.length =
      w2 ++ '}' :: '}' :: x := by
    have := List.drop_left id (w2 ++ '}' :: '}' :: x)
    simpa using this
  have hws2 : (w2 ++ '}' :: '}' :: x).takeWhile isWsChar = w2 :=
    takeWhile_run isWsChar w2 ('}' :: x) '}' hw2 (by decide)
  have hdropw2 : (w2 ++ '}' :: '}' :: x).drop w2.length =
      '}' :: '}' :: x := List.drop_left w2 ('}' :: '}' :: x)
  have hempty : id.isEmpty = false := by
    cases id with
    | nil => exact absurd rfl hid
    | cons _ _ => rfl
  simp only [tryMatch, and_self, if_pos, hws1, hdrop1, htake10,
    hdrop10, hidtw, hempty, hiddr, hws2, hdropw2, if_true]
  simp

theorem tryMatch_isToken (t id x : List Char) (h : IsToken t id) :
    tryMatch (t ++ x) = some (String.mk id, t.length) := by
  obtain ⟨w1, w2, rfl, hw1, hw2, hid, hidc⟩ := h
  have harr : ('{' :: '{' ::
      (w1 ++ ("Resources.").data ++ id ++ w2 ++ ['}', '}'])) ++ x =
      '{' :: '{' ::
        (w1 ++ ("Resources.").data ++ id ++ w2 ++ '}' :: '}' :: x) := by
    simp
  rw [harr, tryMatch_complete w1 id w2 x hw1 hw2 hid hidc]
  have hlen : ('{' :: '{' ::
      (w1 ++ ("Resources.").data ++ id ++ w2 ++ ['}', '}'])).length =
      2 + w1.length + 10 + id.length + w2.length + 2 := by
    simp [List.length_append]
    omega
  rw [hlen]

end Wpm

namespace Wpm

theorem drop_takeWhile_length (p : Char → Bool) (l : List Char) :
    l.drop (l.takeWhile p).length = l.dropWhile p := by
  induction l with
  | nil => rfl
  | cons c l' ih =>
      by_cases hp : p c = true
      · simp [List.takeWhile_cons, List.dropWhile_cons, hp, ih]
      · simp [List.takeWhile_cons, List.dropWhile_cons, hp]

/-- A successful `tryMatch` on `cs` means `cs` begins with a token whose
identifier is the captured string and whose length is the reported
match length. -/
theorem tryMatch_shape (cs : List Char) (sid : String) (len : Nat)
    (h : tryMatch cs = some (sid, len)) :
    ∃ t id tail, cs = t ++ tail ∧ IsToken t id ∧ sid = String.mk id ∧
      len = t.length := by
  cases cs with
  | nil => exact absurd h (by simp [tryMatch])
  | cons c0 tl =>
  cases tl with
  | nil => exact absurd h (by simp [tryMatch])
  | cons c1 rest =>
  unfold tryMatch at h
  try dsimp only at h
  by_cases hb : c0 = '{' ∧ c1 = '{'
  case neg => rw [if_neg hb] at h; exact absurd h (by simp)
  rw [if_pos hb] at h
  obtain ⟨rfl, rfl⟩ := hb
  try dsimp only at h
  by_cases h10 : (rest.drop (rest.takeWhile isWsChar).length).take 10 =
      ("Resources.").data
  case neg => rw [if_neg h10] at h; exact absurd h (by simp)
  rw [if_pos h10] at h
  by_cases hemp : (((rest.drop (rest.takeWhile isWsChar).length).drop
      10).takeWhile isIdentChar).isEmpty = true
  case pos => rw [if_pos hemp] at h; exact absurd h (by simp)
  rw [if_neg hemp] at h
  cases hr4 : ((((rest.drop (rest.takeWhile isWsChar).length).drop
        10).drop (((rest.drop (rest.takeWhile isWsChar).length).drop
        10).takeWhile isIdentChar).length).drop
      ((((rest.drop (rest.takeWhile isWsChar).length).drop 10).drop
        (((rest.drop (rest.takeWhile isWsChar).length).drop
          10).takeWhile isIdentChar).length).takeWhile
        isWsChar).length) with
  | nil => rw [hr4] at h; exact absurd h (by simp)
  | cons d0 t2 =>
  cases t2 with
  | nil => rw [hr4] at h; exact absurd h (by simp)
  | cons d1 tail =>
  rw [hr4] at h
  try dsimp only at h
  by_cases hdd : d0 = '}' ∧ d1 = '}'
  case neg => rw [if_neg hdd] at h; exact absurd h (by simp)
  rw [if_pos hdd] at h
  obtain ⟨rfl, rfl⟩ := hdd
  injection h with h'
  injection h' with hsid hlen
  -- names for the components
  set w1 := rest.takeWhile isWsChar with hw1
  set r1 := rest.drop w1.length with hr1
  set r2 := r1.drop 10 with hr2
  set idl := r2.takeWhile isIdentChar with hidl
  set r3 := r2.drop idl.length with hr3
  set w2 := r3.takeWhile isWsChar with hw2
  have hrest : rest = w1 ++ r1 := by
    rw [hr1, hw1, drop_takeWhile_length]
    exact (List.takeWhile_append_dropWhile (p := isWsChar)
      (l := rest)).symm
  have hr1split : r1 = ("Resources.").data ++ r2 := by
    rw [hr2]
    conv_lhs => rw [← List.take_append_drop 10 r1]
    rw [h10]
  have hr2split : r2 = idl ++ r3 := by
    rw [hr3, hidl, drop_takeWhile_length]
    exact (List.takeWhile_append_dropWhile (p := isIdentChar)
      (l := r2)).symm
  have hr3split : r3 = w2 ++ ('}' :: '}' :: tail) := by
    rw [← hr4, hw2, drop_takeWhile_length]
    exact (List.takeWhile_append_dropWhile (p := isWsChar)
      (l := r3)).symm
  refine ⟨'{' :: '{' :: (w1 ++ ("Resources.").data ++ idl ++ w2 ++
    ['}', '}']), idl, tail, ?_, ?_, ?_, ?_⟩
  · rw [hrest, hr1split, hr2split, hr3split]
    simp
  · refine ⟨w1, w2, rfl, ?_, ?_, ?_, ?_⟩
    · intro c hc
      exact List.mem_takeWhile_imp hc
    · intro c hc
      exact List.mem_takeWhile_imp hc
    · intro hnil
      rw [hnil] at hemp
      exact hemp rfl
    · intro c hc
      exact List.mem_takeWhile_imp hc
  · exact hsid.symm
  · rw [← hlen]
    simp [List.length_append]
    omega

end Wpm

namespace Wpm

/-- What a cached path must look like for interpolation to be exact: no
braces (so no token can begin or end inside it) and at least one
character that cannot occur anywhere in a token, such as the path
separator or the drive colon of every wpm store path. -/
def pathOk (p : String) : Prop :=
  (∀ c ∈ p.data, ¬(c = '{' ∨ c = '}')) ∧
  ∃ c ∈ p.data, interiorChar c = false

theorem lookupS_mem {α : Type} (m : List (String × α)) (k : String)
    (v : α) (h : lookupS m k = some v) : (k, v) ∈ m := by
  induction m with
  | nil => exact absurd h (by simp [lookupS])
  | cons kv rest ih =>
      obtain ⟨k₀, v₀⟩ := kv
      by_cases hk : k₀ = k
      · subst hk
        simp only [lookupS, if_pos rfl] at h
        injection h with h'
        subst h'
        exact List.mem_cons_self _ _
      · simp only [lookupS, if_neg hk] at h
        exact List.mem_cons_of_mem _ (ih h)

/-- The states of a token suffix that may still be completed: nothing,
the final brace, interior followed by the closing braces, or one opening
brace followed by a nonempty interior and the closing braces. -/
def OkPartial (e : List Char) : Prop :=
  e = [] ∨ e = ['}'] ∨
  (∃ w, e = w ++ ['}', '}'] ∧ ∀ c ∈ w, interiorChar c = true) ∨
  (∃ w, e = '{' :: (w ++ ['}', '}']) ∧ (∀ c ∈ w, interiorChar c = true) ∧
    w ≠ [])

theorem OkPartial_tail (c : Char) (e : List Char)
    (h : OkPartial (c :: e)) : OkPartial e := by
  rcases h with h | h | ⟨w, hw, hwi⟩ | ⟨w, hw, hwi, hwne⟩
  · exact absurd h (by simp)
  · left
    simp only [List.cons.injEq] at h
    exact h.2
  · cases w with
    | nil =>
        right; left
        simp only [List.nil_append, List.cons.injEq] at hw
        exact hw.2
    | cons w0 w' =>
        right; right; left
        rw [List.cons_append] at hw
        injection hw with h1 h2
        exact ⟨w', h2, fun x hx => hwi x (List.mem_cons_of_mem w0 hx)⟩
  · right; right; left
    injection hw with h1 h2
    exact ⟨w, h2, hwi⟩

theorem OkPartial_chars (e : List Char) (h : OkPartial e) :
    ∀ c ∈ e, c = '{' ∨ c = '}' ∨ interiorChar c = true := by
  rcases h with rfl | rfl | ⟨w, rfl, hwi⟩ | ⟨w, rfl, hwi, _⟩
  · intro c hc; exact absurd hc (List.not_mem_nil c)
  · intro c hc
    simp only [List.mem_singleton] at hc
    exact Or.inr (Or.inl hc)
  · intro c hc
    rcases List.mem_append.1 hc with hc | hc
    · exact Or.inr (Or.inr (hwi c hc))
    · simp only [List.mem_cons, List.mem_singleton] at hc
      rcases hc with rfl | rfl | h'
      · exact Or.inr (Or.inl rfl)
      · exact Or.inr (Or.inl rfl)
      · exact absurd h' (List.not_mem_nil c)
  · intro c hc
    rcases List.mem_cons.1 hc with rfl | hc
    · exact Or.inl rfl
    · rcases List.mem_append.1 hc with hc | hc
      · exact Or.inr (Or.inr (hwi c hc))
      · simp only [List.mem_cons, List.mem_singleton] at hc
        rcases hc with rfl | rfl | h'
        · exact Or.inr (Or.inl rfl)
        · exact Or.inr (Or.inl rfl)
        · exact absurd h' (List.not_mem_nil c)

theorem OkPartial_close_mem (e : List Char) (h : OkPartial e)
    (hne : e ≠ []) : '}' ∈ e := by
  rcases h with rfl | rfl | ⟨w, rfl, _⟩ | ⟨w, rfl, _, _⟩
  · exact absurd rfl hne
  · exact List.mem_singleton.2 rfl
  · exact List.mem_append.2 (Or.inr (List.mem_cons_self _ _))
  · exact List.mem_cons_of_mem _
      (List.mem_append.2 (Or.inr (List.mem_cons_self _ _)))

end Wpm

namespace Wpm

/-- If the rendered output of the scanner begins with a completable
token suffix, that suffix is present verbatim at the head of the input:
substituted paths can neither supply token characters (their blocker
character cannot sit inside a token and their lack of braces prevents
partial overlap) nor can kept tokens (their second character is an
opening brace where an interior character would be required). -/
theorem span_lemma (m : List (String × String))
    (hm : ∀ kv ∈ m, pathOk kv.2) :
    ∀ (fuel : Nat) (cs e v : List Char), cs.length < fuel →
      OkPartial e → render (tokenize m fuel cs) = e ++ v →
      ∃ s', cs = e ++ s' := by
  intro fuel
  induction fuel with
  | zero => intro cs e v h; exact absurd h (by omega)
  | succ f ih =>
  intro cs e v hlen hok hr
  cases cs with
  | nil =>
      have hz : render (tokenize m (f + 1) []) = [] := rfl
      rw [hz] at hr
      have he : e = [] := (List.append_eq_nil.1 hr.symm).1
      exact ⟨[], by rw [he]; rfl⟩
  | cons c cs' =>
  cases e with
  | nil => exact ⟨c :: cs', rfl⟩
  | cons e0 e' =>
  cases htm : tryMatch (c :: cs') with
  | none =>
      have hrw : render (tokenize m (f + 1) (c :: cs')) =
          c :: render (tokenize m f cs') := by
        simp only [tokenize, htm, render]
      rw [hrw, List.cons_append] at hr
      injection hr with h1 h2
      obtain ⟨s', hs'⟩ := ih cs' e' v
        (by simp only [List.length_cons] at hlen; omega)
        (OkPartial_tail e0 e' hok) h2
      exact ⟨s', by rw [h1, hs']; rfl⟩
  | some pr =>
  obtain ⟨sid, len⟩ := pr
  obtain ⟨tk, kid, tail, hcs, htok, hsid, hlen2⟩ :=
    tryMatch_shape _ _ _ htm
  cases hlk : lookupS m sid with
  | some path =>
      have hrw : render (tokenize m (f + 1) (c :: cs')) =
          path.data ++ render (tokenize m f ((c :: cs').drop len)) := by
        simp only [tokenize, htm, hlk, render]
      rw [hrw] at hr
      have hpok : pathOk path :=
        hm (sid, path) (lookupS_mem m sid path hlk)
      rcases List.append_eq_append_iff.1 hr with ⟨a', ha1, ha2⟩ |
        ⟨c₂, hc1, hc2⟩
      · obtain ⟨b, hbmem, hbint⟩ := hpok.2
        have hbin : b ∈ (e0 :: e') := by
          rw [ha1]
          exact List.mem_append.2 (Or.inl hbmem)
        rcases OkPartial_chars _ hok b hbin with rfl | rfl | hint
        · exact absurd (Or.inl rfl) (hpok.1 _ hbmem)
        · exact absurd (Or.inr rfl) (hpok.1 _ hbmem)
        · rw [hint] at hbint
          exact absurd hbint (by simp)
      · have hclose : '}' ∈ (e0 :: e') :=
          OkPartial_close_mem _ hok (by simp)
        have hmem : '}' ∈ path.data := by
          rw [hc1]
          exact List.mem_append.2 (Or.inl hclose)
        exact absurd (Or.inr rfl) (hpok.1 _ hmem)
  | none =>
      have hrw : render (tokenize m (f + 1) (c :: cs')) =
          (c :: cs').take len ++
            render (tokenize m f ((c :: cs').drop len)) := by
        simp only [tokenize, htm, hlk, render]
      have htake : (c :: cs').take len = tk := by
        rw [hcs, hlen2]
        exact List.take_left tk tail
      rw [hrw, htake] at hr
      obtain ⟨w1, w2, htk, hw1, hw2, hkid, hkidc⟩ := htok
      rw [htk] at hr
      simp only [List.cons_append] at hr
      injection hr with h1 h2
      rcases hok with habs | habs | ⟨w, hw, hwi⟩ | ⟨w, hw, hwi, hwne⟩
      · exact absurd habs (by simp)
      · have he0 : e0 = '}' := by
          simp only [List.cons.injEq] at habs
          exact habs.1
        rw [he0] at h1
        exact absurd h1 (by decide)
      · cases w with
        | nil =>
            simp only [List.nil_append, List.cons.injEq] at hw
            rw [hw.1] at h1
            exact absurd h1 (by decide)
        | cons w0 w' =>
            rw [List.cons_append] at hw
            injection hw with hx1 hx2
            have h3 := hwi w0 (List.mem_cons_self w0 w')
            rw [← hx1, ← h1] at h3
            exact absurd h3 (by decide)
      · injection hw with hx1 hx2
        rw [hx2] at h2
        cases w with
        | nil => exact absurd rfl hwne
        | cons w0 w' =>
            simp only [List.cons_append, List.append_assoc] at h2
            injection h2 with hy1 hy2
            have h3 := hwi w0 (List.mem_cons_self w0 w')
            rw [← hy1] at h3
            exact absurd h3 (by decide)

end Wpm

namespace Wpm

theorem token_mid_interior (w1 id w2 : List Char)
    (hw1 : ∀ c ∈ w1, isWsChar c = true)
    (hw2 : ∀ c ∈ w2, isWsChar c = true)
    (hidc : ∀ c ∈ id, isIdentChar c = true) :
    ∀ c ∈ (w1 ++ ("Resources.").data ++ id ++ w2),
      interiorChar c = true := by
  have hres : ∀ c ∈ ("Resources.").data, interiorChar c = true := by
    decide
  intro c hc
  rcases List.mem_append.1 hc with hc | hc
  · rcases List.mem_append.1 hc with hc | hc
    · rcases List.mem_append.1 hc with hc | hc
      · simp [interiorChar, hw1 c hc]
      · exact hres c hc
    · simp [interiorChar, hidc c hc]
  · simp [interiorChar, hw2 c hc]

/-- No token whose identifier is in the map survives in the scanner's
output. -/
theorem tokenize_no_listed_token (m : List (String × String))
    (hm : ∀ kv ∈ m, pathOk kv.2) :
    ∀ (fuel : Nat) (cs : List Char), cs.length < fuel →
      ∀ (u t v id : List Char),
        render (tokenize m fuel cs) = u ++ t ++ v → IsToken t id →
        lookupS m (String.mk id) = none := by
  intro fuel
  induction fuel with
  | zero => intro cs hcs; exact absurd hcs (by omega)
  | succ f ih =>
  intro cs hlen u t v id hr htok
  rw [List.append_assoc] at hr
  cases cs with
  | nil =>
      have hz : render (tokenize m (f + 1) []) = [] := rfl
      rw [hz] at hr
      have ht : t = [] := by
        have h2 := List.append_eq_nil.1 hr.symm
        exact (List.append_eq_nil.1 h2.2).1
      obtain ⟨w1, w2, htk, -, -, -, -⟩ := htok
      rw [htk] at ht
      exact absurd ht (by simp)
  | cons c cs' =>
  cases htm : tryMatch (c :: cs') with
  | none =>
      have hrw : render (tokenize m (f + 1) (c :: cs')) =
          c :: render (tokenize m f cs') := by
        simp only [tokenize, htm, render]
      rw [hrw] at hr
      cases u with
      | cons u0 u' =>
          rw [List.cons_append] at hr
          injection hr with h1 h2
          rw [← List.append_assoc] at h2
          exact ih cs' (by simp only [List.length_cons] at hlen; omega)
            u' t v id h2 htok
      | nil =>
          simp only [List.nil_append] at hr
          obtain ⟨w1, w2, htk, hw1, hw2, hid, hidc⟩ := htok
          rw [htk] at hr
          simp only [List.cons_append] at hr
          injection hr with h1 h2
          have hmidint := token_mid_interior w1 id w2 hw1 hw2 hidc
          have hmidne : (w1 ++ ("Resources.").data ++ id ++ w2) ≠ [] := by
            intro hx
            have h1' := (List.append_eq_nil.1 hx).1
            have h2' := (List.append_eq_nil.1 h1').1
            have h3' := (List.append_eq_nil.1 h2').2
            exact absurd h3' (by decide)
          have hok : OkPartial ('{' ::
              ((w1 ++ ("Resources.").data ++ id ++ w2) ++ ['}', '}'])) :=
            Or.inr (Or.inr (Or.inr ⟨_, rfl, hmidint, hmidne⟩))
          have hspan := span_lemma m hm f cs'
            ('{' :: ((w1 ++ ("Resources.").data ++ id ++ w2) ++
              ['}', '}'])) v
            (by simp only [List.length_cons] at hlen; omega) hok
            (by rw [h2]; simp [List.append_assoc])
          obtain ⟨s', hs'⟩ := hspan
          have hteq : c :: cs' =
              ('{' :: '{' :: (w1 ++ ("Resources.").data ++ id ++ w2 ++
                ['}', '}'])) ++ s' := by
            rw [h1, hs']
            simp [List.append_assoc]
          have hsm : tryMatch (c :: cs') =
              some (String.mk id, ('{' :: '{' ::
                (w1 ++ ("Resources.").data ++ id ++ w2 ++
                  ['}', '}'])).length) := by
            rw [hteq]
            exact tryMatch_isToken _ id s' ⟨w1, w2, rfl, hw1, hw2,
              hid, hidc⟩
          rw [hsm] at htm
          exact absurd htm (by simp)
  | some pr =>
  obtain ⟨sid, len⟩ := pr
  obtain ⟨tk, kid, tail, hcs, htokk, hsid, hlen2⟩ :=
    tryMatch_shape _ _ _ htm
  have htklen : 1 ≤ tk.length := by
    obtain ⟨w1k, w2k, htkk, -, -, -, -⟩ := htokk
    rw [htkk]
    simp
  have htail_len : tail.length < f := by
    have hx : (c :: cs').length = tk.length + tail.length := by
      rw [hcs]
      simp [List.length_append]
    rw [hx] at hlen
    omega
  have hdrop : (c :: cs').drop len = tail := by
    rw [hcs, hlen2]
    exact List.drop_left tk tail
  cases hlk : lookupS m sid with
  | some path =>
      have hrw : render (tokenize m (f + 1) (c :: cs')) =
          path.data ++ render (tokenize m f ((c :: cs').drop len)) := by
        simp only [tokenize, htm, hlk, render]
      rw [hrw, hdrop] at hr
      rcases List.append_eq_append_iff.1 hr with ⟨a', ha1, ha2⟩ |
        ⟨c₂, hc1, hc2⟩
      · rw [← List.append_assoc] at ha2
        exact ih tail htail_len a' t v id ha2 htok
      · cases c₂ with
        | nil =>
            simp only [List.nil_append] at hc2
            exact ih tail htail_len [] t v id (by simpa using hc2.symm)
              htok
        | cons b c₂' =>
            obtain ⟨w1t, w2t, htkt, -, -, -, -⟩ := htok
            rw [htkt] at hc2
            simp only [List.cons_append] at hc2
            injection hc2 with hb1 hb2
            have hbmem : b ∈ path.data := by
              rw [hc1]
              exact List.mem_append.2 (Or.inr (List.mem_cons_self b c₂'))
            have hpok := hm (sid, path) (lookupS_mem m sid path hlk)
            exact absurd (Or.inl hb1.symm) (hpok.1 b hbmem)
  | none =>
      have hrw : render (tokenize m (f + 1) (c :: cs')) =
          (c :: cs').take len ++
            render (tokenize m f ((c :: cs').drop len)) := by
        simp only [tokenize, htm, hlk, render]
      have htake : (c :: cs').take len = tk := by
        rw [hcs, hlen2]
        exact List.take_left tk tail
      rw [hrw, htake, hdrop] at hr
      rcases List.append_eq_append_iff.1 hr with ⟨a', ha1, ha2⟩ |
        ⟨c₂, hc1, hc2⟩
      · rw [← List.append_assoc] at ha2
        exact ih tail htail_len a' t v id ha2 htok
      · cases c₂ with
        | nil =>
            simp only [List.nil_append] at hc2
            exact ih tail htail_len [] t v id (by simpa using hc2.symm)
              htok
        | cons b c₂' =>
            cases u with
            | nil =>
                simp only [List.nil_append] at hc1
                have hdet1 : tryMatch (t ++ v) =
                    some (String.mk id, t.length) :=
                  tryMatch_isToken t id v htok
                have hdet2 : tryMatch (tk ++
                    render (tokenize m f tail)) =
                    some (String.mk kid, tk.length) :=
                  tryMatch_isToken tk kid _ htokk
                rw [← hc1] at hc2
                rw [hc2, hdet2] at hdet1
                injection hdet1 with hdet
                have hideq : String.mk kid = String.mk id := by
                  have := congrArg Prod.fst hdet
                  simpa using this
                rw [← hideq, ← hsid]
                exact hlk
            | cons u0 u' =>
                obtain ⟨w1k, w2k, htkk, hw1k, hw2k, hkidne, hkidc⟩ :=
                  htokk
                obtain ⟨w1t, w2t, htkt, -, -, -, -⟩ := htok
                rw [htkt] at hc2
                simp only [List.cons_append] at hc2
                injection hc2 with hb1 hb2
                rw [htkk] at hc1
                have hmidint := token_mid_interior w1k kid w2k hw1k
                  hw2k hkidc
                cases u' with
                | nil =>
                    simp only [List.cons_append, List.nil_append] at hc1
                    injection hc1 with hz1 hz2
                    injection hz2 with hz3 hz4
                    -- hz3 : '{' = b, hz4 : mid ++ "}}" = c₂'
                    -- hb2 : '{' :: ((w1t...) ++ v) = c₂' ++ R'
                    rw [← hz4] at hb2
                    cases hmid : (w1k ++ ("Resources.").data ++ kid ++
                        w2k) with
                    | nil => exact absurd hmid (by simp)
                    | cons mk0 mrest =>
                        rw [hmid] at hb2
                        simp only [List.cons_append] at hb2
                        injection hb2 with hy1 hy2
                        have h3 : interiorChar mk0 = true := by
                          apply hmidint
                          rw [hmid]
                          exact List.mem_cons_self mk0 mrest
                        rw [← hy1] at h3
                        exact absurd h3 (by decide)
                | cons u1 u'' =>
                    simp only [List.cons_append] at hc1
                    injection hc1 with hz1 hz2
                    injection hz2 with hz3 hz4
                    -- hz4 : mid ++ "}}" = u'' ++ b :: c₂'
                    have hbm : b ∈ (w1k ++ ("Resources.").data ++ kid ++
                        w2k) ++ ['}', '}'] := by
                      rw [hz4]
                      exact List.mem_append.2 (Or.inr
                        (List.mem_cons_self b c₂'))
                    rcases List.mem_append.1 hbm with hbm | hbm
                    · have h3 := hmidint b hbm
                      rw [← hb1] at h3
                      exact absurd h3 (by decide)
                    · simp only [List.mem_cons, List.mem_singleton]
                        at hbm
                      rcases hbm with rfl | rfl | habs
                      · exact absurd hb1 (by decide)
                      · exact absurd hb1 (by decide)
                      · exact absurd habs (List.not_mem_nil b)

end Wpm

namespace Wpm

/-- A string whose tokens all have identifiers outside the map passes
through the scanner unchanged. -/
theorem tokenize_id_unchanged (m : List (String × String)) :
    ∀ (fuel : Nat) (cs : List Char), cs.length < fuel →
      (∀ u t v id, cs = u ++ t ++ v → IsToken t id →
        lookupS m (String.mk id) = none) →
      render (tokenize m fuel cs) = cs := by
  intro fuel
  induction fuel with
  | zero => intro cs h; exact absurd h (by omega)
  | succ f ih =>
  intro cs hlen hno
  cases cs with
  | nil => rfl
  | cons c cs' =>
  cases htm : tryMatch (c :: cs') with
  | none =>
      have hrw : render (tokenize m (f + 1) (c :: cs')) =
          c :: render (tokenize m f cs') := by
        simp only [tokenize, htm, render]
      rw [hrw]
      have hrec := ih cs'
        (by simp only [List.length_cons] at hlen; omega)
        (fun u t v id hsplit htok =>
          hno (c :: u) t v id (by rw [hsplit]; rfl) htok)
      rw [hrec]
  | some pr =>
  obtain ⟨sid, len⟩ := pr
  obtain ⟨tk, kid, tail, hcs, htokk, hsid, hlen2⟩ :=
    tryMatch_shape _ _ _ htm
  have hlk : lookupS m sid = none := by
    rw [hsid]
    exact hno [] tk tail kid (by rw [hcs]; rfl) htokk
  have hrw : render (tokenize m (f + 1) (c :: cs')) =
      (c :: cs').take len ++
        render (tokenize m f ((c :: cs').drop len)) := by
    simp only [tokenize, htm, hlk, render]
  have htake : (c :: cs').take len = tk := by
    rw [hcs, hlen2]
    exact List.take_left tk tail
  have hdrop : (c :: cs').drop len = tail := by
    rw [hcs, hlen2]
    exact List.drop_left tk tail
  have htklen : 1 ≤ tk.length := by
    obtain ⟨w1k, w2k, htkk, -, -, -, -⟩ := htokk
    rw [htkk]
    simp
  have htail_len : tail.length < f := by
    have hx : (c :: cs').length = tk.length + tail.length := by
      rw [hcs]
      simp [List.length_append]
    rw [hx] at hlen
    omega
  have hrec := ih tail htail_len
    (fun u t v id hsplit htok =>
      hno (tk ++ u) t v id
        (by rw [hcs, hsplit]; simp [List.append_assoc]) htok)
  rw [hrw, htake, hdrop, hrec, hcs]

/-- A string that is exactly one token with a mapped identifier is
replaced by the mapped path, once, with no rescanning of the result. -/
theorem replace_interpolations_single (t id : List Char)
    (m : List (String × String)) (path : String)
    (ht : IsToken t id) (h : lookupS m (String.mk id) = some path) :
    replace_interpolations (String.mk t) m = path := by
  have htm : tryMatch t = some (String.mk id, t.length) := by
    have hx := tryMatch_isToken t id [] ht
    rwa [List.append_nil] at hx
  obtain ⟨w1, w2, htk, hw1, hw2, hid, hidc⟩ := ht
  unfold replace_interpolations
  cases hts : t with
  | nil => rw [hts] at htk; exact absurd htk (by simp)
  | cons c cs' =>
  rw [hts] at htm
  have hdata : (String.mk (c :: cs')).data = c :: cs' := rfl
  rw [← hts]
  rw [hts]
  have hrw : tokenize m ((String.mk (c :: cs')).data.length + 1)
      (String.mk (c :: cs')).data =
      .subst path.data ::
        tokenize m (String.mk (c :: cs')).data.length
          ((c :: cs').drop (c :: cs').length) := by
    have hlen' : (String.mk (c :: cs')).data.length + 1 =
        (c :: cs').length + 1 := rfl
    simp only [hdata, List.length_cons, tokenize, htm]
    rw [← hts, h, hts]
  rw [hrw, List.drop_length]
  have hz : tokenize m (String.mk (c :: cs')).data.length [] = [] := by
    cases hn : (String.mk (c :: cs')).data.length with
    | zero => rfl
    | succ n => rfl
  rw [hz]
  simp only [render, List.append_nil]

/-- Building the resource map when every fetch succeeded. -/
theorem buildResourceMap_all_fetched
    (fetch : String → String → FetchOutcome) :
    ∀ (res : List (String × String)),
      (∀ iu ∈ res, ∃ p, fetch iu.1 iu.2 = .fetched p) →
      ∃ rm, buildResourceMap fetch res = .ok rm ∧
        (∀ iu ∈ res, (lookupS rm iu.1).isSome = true) ∧
        (∀ kv ∈ rm, ∃ iu ∈ res, fetch iu.1 iu.2 = .fetched kv.2) := by
  intro res
  induction res with
  | nil =>
      intro _
      exact ⟨[], rfl, by simp, by simp⟩
  | cons iu rest ih =>
      intro hall
      obtain ⟨i, u⟩ := iu
      obtain ⟨p, hp⟩ := hall (i, u) (List.mem_cons_self _ _)
      obtain ⟨rm, hbm, hlook, hsrc⟩ :=
        ih (fun x hx => hall x (List.mem_cons_of_mem _ hx))
      refine ⟨(i, p) :: rm, ?_, ?_, ?_⟩
      · unfold buildResourceMap
        rw [hp, hbm]
        rfl
      · intro x hx
        rcases List.mem_cons.1 hx with rfl | hx
        · simp [lookupS]
        · by_cases hk : i = x.1
          · simp [lookupS, hk]
          · simp only [lookupS, if_neg hk]
            exact hlook x hx
      · intro kv hkv
        rcases List.mem_cons.1 hkv with rfl | hkv
        · exact ⟨(i, u), List.mem_cons_self _ _, hp⟩
        · obtain ⟨iu', hm', hf'⟩ := hsrc kv hkv
          exact ⟨iu', List.mem_cons_of_mem _ hm', hf'⟩

/-- Conclusion form for claim C8: the string contains no token whose
identifier is listed in the unit's Resources. -/
def noListedToken (res : List (String × String)) (s : String) : Prop :=
  ∀ u t v id, s.data = u ++ t ++ v → IsToken t id →
    ∀ url, (String.mk id, url) ∉ res

end Wpm

namespace Wpm

theorem mem_getD_map {α β : Type} (g : α → β) (o : Option (List α))
    (b : β) (h : b ∈ (o.map (List.map g)).getD []) : ∃ a, b = g a := by
  cases o with
  | none => simp at h
  | some l =>
      simp only [Option.map_some', Option.getD_some, List.mem_map] at h
      obtain ⟨a, -, ha⟩ := h
      exact ⟨a, ha.symm⟩

/-- Claim C8 as amended: after a load in which every resource of the
unit was fetched (to a brace-free store path containing a separator),
no argument string and no environment value that the source
interpolates — the service environment, the arguments and environment
values of exec_start, exec_start_pre, exec_start_post and
exec_stop_post, and the arguments (only) of exec_stop — still contains
a token whose identifier was listed under Resources; a string that is
exactly one mapped token is replaced exactly once by the cached path;
and a string whose tokens all have unmapped identifiers is left
unchanged.  (The source does not interpolate exec_stop environment
values; see the counterexample.) -/
theorem wpm_c8_interpolation (fetch : String → String → FetchOutcome)
    (d d' : Definition) (res : List (String × String))
    (hres : d.resources = some res)
    (hall : ∀ iu ∈ res, ∃ p, fetch iu.1 iu.2 = .fetched p ∧ pathOk p)
    (hload : Definition.resolve_resources fetch d = .ok d') :
    ((∀ kv ∈ d'.service.environment.getD [], noListedToken res kv.2) ∧
     (∀ a ∈ d'.service.exec_start.arguments.getD [],
       noListedToken res a) ∧
     (∀ kv ∈ d'.service.exec_start.environment.getD [],
       noListedToken res kv.2) ∧
     (∀ c ∈ d'.service.exec_start_pre.getD [],
       (∀ a ∈ c.arguments.getD [], noListedToken res a) ∧
       (∀ kv ∈ c.environment.getD [], noListedToken res kv.2)) ∧
     (∀ c ∈ d'.service.exec_start_post.getD [],
       (∀ a ∈ c.arguments.getD [], noListedToken res a) ∧
       (∀ kv ∈ c.environment.getD [], noListedToken res kv.2)) ∧
     (∀ c ∈ d'.service.exec_stop.getD [],
       ∀ a ∈ c.arguments.getD [], noListedToken res a) ∧
     (∀ c ∈ d'.service.exec_stop_post.getD [],
       (∀ a ∈ c.arguments.getD [], noListedToken res a) ∧
       (∀ kv ∈ c.environment.getD [], noListedToken res kv.2))) ∧
    (∀ (m : List (String × String)) (t id : List Char) (path : String),
      IsToken t id → lookupS m (String.mk id) = some path →
      replace_interpolations (String.mk t) m = path) ∧
    (∀ (m : List (String × String)) (s : String),
      (∀ u t v id, s.data = u ++ t ++ v → IsToken t id →
        lookupS m (String.mk id) = none) →
      replace_interpolations s m = s) := by
  obtain ⟨rm, hbm, hlookAll, hsrc⟩ := buildResourceMap_all_fetched fetch
    res (fun iu hiu => ⟨(hall iu hiu).choose, (hall iu hiu).choose_spec.1⟩)
  have hmok : ∀ kv ∈ rm, pathOk kv.2 := by
    intro kv hkv
    obtain ⟨iu, hiu, hf⟩ := hsrc kv hkv
    obtain ⟨p, hp, hpok⟩ := hall iu hiu
    rw [hp] at hf
    injection hf with hf'
    rw [← hf']
    exact hpok
  have hkey : ∀ s : String, noListedToken res
      (replace_interpolations s rm) := by
    intro s u t v id hsplit htok url hmem
    have hnone : lookupS rm (String.mk id) = none := by
      have hdata : (replace_interpolations s rm).data =
          render (tokenize rm (s.data.length + 1) s.data) := rfl
      rw [hdata] at hsplit
      exact tokenize_no_listed_token rm hmok (s.data.length + 1) s.data
        (by omega) u t v id hsplit htok
    have hsome := hlookAll (String.mk id, url) hmem
    rw [hnone] at hsome
    exact absurd hsome (by simp)
  unfold Definition.resolve_resources at hload
  rw [hres] at hload
  try dsimp only at hload
  rw [hbm] at hload
  try dsimp only at hload
  injection hload with h'
  subst h'
  refine ⟨⟨?_, ?_, ?_, ?_, ?_, ?_, ?_⟩, ?_, ?_⟩
  · intro kv hkv
    try dsimp only at hkv
    obtain ⟨kv₀, hkv₀⟩ := mem_getD_map _ _ _ hkv
    rw [hkv₀]
    exact hkey kv₀.2
  · intro a ha
    try dsimp only at ha
    simp only [substCmdArgsEnv] at ha
    obtain ⟨a₀, ha₀⟩ := mem_getD_map _ _ _ ha
    rw [ha₀]
    exact hkey a₀
  · intro kv hkv
    try dsimp only at hkv
    simp only [substCmdArgsEnv] at hkv
    obtain ⟨kv₀, hkv₀⟩ := mem_getD_map _ _ _ hkv
    rw [hkv₀]
    exact hkey kv₀.2
  · intro c hc
    try dsimp only at hc
    obtain ⟨c₀, hc₀⟩ := mem_getD_map _ _ _ hc
    subst hc₀
    constructor
    · intro a ha
      simp only [substCmdArgsEnv] at ha
      obtain ⟨a₀, ha₀⟩ := mem_getD_map _ _ _ ha
      rw [ha₀]
      exact hkey a₀
    · intro kv hkv
      simp only [substCmdArgsEnv] at hkv
      obtain ⟨kv₀, hkv₀⟩ := mem_getD_map _ _ _ hkv
      rw [hkv₀]
      exact hkey kv₀.2
  · intro c hc
    try dsimp only at hc
    obtain ⟨c₀, hc₀⟩ := mem_getD_map _ _ _ hc
    subst hc₀
    constructor
    · intro a ha
      simp only [substCmdArgsEnv] at ha
      obtain ⟨a₀, ha₀⟩ := mem_getD_map _ _ _ ha
      rw [ha₀]
      exact hkey a₀
    · intro kv hkv
      simp only [substCmdArgsEnv] at hkv
      obtain ⟨kv₀, hkv₀⟩ := mem_getD_map _ _ _ hkv
      rw [hkv₀]
      exact hkey kv₀.2
  · intro c hc
    try dsimp only at hc
    obtain ⟨c₀, hc₀⟩ := mem_getD_map _ _ _ hc
    subst hc₀
    intro a ha
    simp only [substCmdArgs] at ha
    obtain ⟨a₀, ha₀⟩ := mem_getD_map _ _ _ ha
    rw [ha₀]
    exact hkey a₀
  · intro c hc
    try dsimp only at hc
    obtain ⟨c₀, hc₀⟩ := mem_getD_map _ _ _ hc
    subst hc₀
    constructor
    · intro a ha
      simp only [substCmdArgsEnv] at ha
      obtain ⟨a₀, ha₀⟩ := mem_getD_map _ _ _ ha
      rw [ha₀]
      exact hkey a₀
    · intro kv hkv
      simp only [substCmdArgsEnv] at hkv
      obtain ⟨kv₀, hkv₀⟩ := mem_getD_map _ _ _ hkv
      rw [hkv₀]
      exact hkey kv₀.2
  · intro m t id path htok hlook
    exact replace_interpolations_single t id m path htok hlook
  · intro m s hno
    have hdata : (replace_interpolations s m).data =
        render (tokenize m (s.data.length + 1) s.data) := rfl
    have hx := tokenize_id_unchanged m (s.data.length + 1) s.data
      (by omega) hno
    unfold replace_interpolations
    rw [hx]

end Wpm

namespace Wpm

/-- A resource token (braces written out: two opening braces,
` Resources.cfg `, two closing braces). -/
def c8token : String := "\x7b\x7b Resources.cfg \x7d\x7d"

def c8stopCmd : ServiceCommand :=
  { executable := .Local ("C:/tools/stopper.exe"), arguments := none,
    environment := some [(("KEY"), c8token)], environment_file := none,
    retry_limit := none }

def c8def : Definition :=
  { mkDefinition ("c8unit") .Simple .Never with
    resources := some [(("cfg"), ("https://x.invalid/cfg.json"))],
    service := { (mkDefinition ("c8unit") .Simple .Never).service with
                 exec_stop := some [c8stopCmd] } }

def c8fetch : String → String → FetchOutcome :=
  fun _ _ => .fetched ("C:/store/cfg.json")

/-- Counterexample to claim C8 as stated: with its single resource
fetched, the unit's exec_stop command still carries an environment value
containing the token of the listed identifier `cfg` after
`resolve_resources` — the source interpolates exec_stop arguments but
not exec_stop environment values. -/
theorem wpm_c8_counterexample :
    (∀ iu ∈ c8def.resources.getD [],
      ∃ p, c8fetch iu.1 iu.2 = .fetched p ∧ pathOk p) ∧
    ∃ d', Definition.resolve_resources c8fetch c8def = .ok d' ∧
      ∃ cmd ∈ d'.service.exec_stop.getD [],
        ∃ kv ∈ cmd.environment.getD [],
          ∃ u t v, kv.2.data = u ++ t ++ v ∧
            IsToken t (("cfg").data) ∧
            (String.mk (("cfg").data),
              ("https://x.invalid/cfg.json")) ∈
              c8def.resources.getD [] := by
  constructor
  · intro iu _
    refine ⟨("C:/store/cfg.json"), rfl, ?_, ?_⟩
    · decide
    · decide
  · refine ⟨_, rfl, c8stopCmd, ?_, (("KEY"), c8token), ?_, [],
      c8token.data, [], ?_, ?_, ?_⟩
    · decide
    · decide
    · decide
    · exact ⟨[' '], [' '], by decide, by decide, by decide, by decide,
        by decide⟩
    · decide

def c8wcmd : ServiceCommand :=
  { executable := .Local ("C:/tools/app.exe"),
    arguments := some [c8token], environment := none,
    environment_file := none, retry_limit := none }

def c8wdef : Definition :=
  { mkDefinition ("c8w") .Simple .Never with
    resources := some [(("cfg"), ("https://x.invalid/cfg.json"))],
    service := { (mkDefinition ("c8w") .Simple .Never).service with
                 exec_start := c8wcmd } }

/-- Witness for the amended C8 at a unit whose exec_start argument is
one resource token. -/
theorem wpm_c8_interpolation_witness :
    c8wdef.resources = some [(("cfg"), ("https://x.invalid/cfg.json"))] ∧
    (∀ iu ∈ [(("cfg"), ("https://x.invalid/cfg.json"))],
      ∃ p, c8fetch iu.1 iu.2 = .fetched p ∧ pathOk p) ∧
    ∃ d', Definition.resolve_resources c8fetch c8wdef = .ok d' ∧
      ∀ a ∈ d'.service.exec_start.arguments.getD [],
        noListedToken [(("cfg"), ("https://x.invalid/cfg.json"))] a := by
  have hall : ∀ iu ∈ [(("cfg"), ("https://x.invalid/cfg.json"))],
      ∃ p, c8fetch iu.1 iu.2 = .fetched p ∧ pathOk p := by
    intro iu _
    refine ⟨("C:/store/cfg.json"), rfl, ?_, ?_⟩
    · decide
    · decide
  refine ⟨rfl, hall, ⟨_, rfl, ?_⟩⟩
  exact ((wpm_c8_interpolation c8fetch c8wdef _ _ rfl hall rfl).1).2.1

end Wpm
